import Mathlib

/-
  Verification of the board engine of a terminal minesweeper game (mines.c).

  The board is a rectangular grid of cells addressed by (x, y) with
  0 <= x < width, 0 <= y < height, stored in C as a flat array indexed by
  y*width+x.  We embed it as a function from coordinate pairs to cells;
  every access the C code performs is bounds-checked (or at the in-bounds
  cursor), so the in-bounds behaviour is captured exactly.

  The recursive uncover function of the C code is embedded with an explicit
  fuel parameter; fuel sufficiency (termination of the C recursion) is proved
  below (lemma uncover_fuel_stable and claim C7).
-/

namespace Mines

inductive CellState where
  | COVERED
  | UNCOVERED
  | FLAGGED
  | EXPLODED
deriving DecidableEq, Repr

inductive GameStatus where
  | InProgress
  | Won
  | Lost
deriving DecidableEq, Repr

/-- struct cell: is_mine, state, neighbors (mines.c lines 46-50). -/
structure Cell where
  is_mine : Bool
  state : CellState
  neighbors : Nat
deriving DecidableEq, Repr

/-- The game board: dimensions plus the cell array (cells[y*width+x] in C,
here a function of the coordinate pair). -/
structure Board where
  w : Nat
  h : Nat
  cell : Nat × Nat → Cell

/-- Writing one cell of the array. -/
def Board.setCell (b : Board) (q : Nat × Nat) (c : Cell) : Board :=
  { b with cell := fun p => if p = q then c else b.cell p }

/-- The in-bounds coordinates of the board. -/
def grid (b : Board) : Finset (Nat × Nat) :=
  Finset.range b.w ×ˢ Finset.range b.h

/-- Number of in-bounds cells in a given state. -/
def stateCount (b : Board) (s : CellState) : Nat :=
  ((grid b).filter (fun p => (b.cell p).state = s)).card

def coveredCount (b : Board) : Nat := stateCount b CellState.COVERED

def uncoveredCount (b : Board) : Nat := stateCount b CellState.UNCOVERED

def explodedCount (b : Board) : Nat := stateCount b CellState.EXPLODED

/-- Number of in-bounds cells holding a mine. -/
def mineCount (b : Board) : Nat :=
  ((grid b).filter (fun p => (b.cell p).is_mine = true)).card

/--
The in-bounds neighbours of (x, y), in the iteration order of the C loops
(j from y-1 to y+1 outer, i from x-1 to x+1 inner), skipping (x, y) itself
and anything out of bounds (mines.c lines 136-144 and analogous loops).
d enumerates the 3x3 window row-major: dj = d / 3, di = d % 3, the
candidate cell is (x + di - 1, y + dj - 1).
-/
def nbrs (w h x y : Nat) : List (Nat × Nat) :=
  (List.range 9).filterMap (fun d =>
    let di := d % 3
    let dj := d / 3
    if 1 ≤ x + di ∧ x + di - 1 < w ∧ 1 ≤ y + dj ∧ y + dj - 1 < h
        ∧ ¬(x + di - 1 = x ∧ y + dj - 1 = y)
    then some (x + di - 1, y + dj - 1) else none)

/-- Number of mines adjacent to (x, y): the inner counting loops of
calculate_neighbors (mines.c lines 211-222). -/
def countNbrMines (b : Board) (x y : Nat) : Nat :=
  (nbrs b.w b.h x y).countP (fun r => (b.cell r).is_mine)

/-- Number of flagged neighbours of q: the counting loop of the chord branch
of uncover (mines.c lines 150-161).  The C code computes
flags_remaining = neighbors - (this count) and chords when it is zero. -/
def flaggedNbrCount (b : Board) (q : Nat × Nat) : Nat :=
  (nbrs b.w b.h q.1 q.2).countP (fun r => decide ((b.cell r).state = CellState.FLAGGED))

/--
uncover (mines.c lines 125-177), with explicit fuel for the recursion.
  - COVERED mine: explode (no cascade);
  - COVERED non-mine: uncover; when neighbors == 0, recursively uncover every
    in-bounds neighbour unconditionally;
  - UNCOVERED: chord - when the flagged-neighbour count equals neighbors
    (flags_remaining == 0 in C), recursively uncover every neighbour that is
    COVERED at that moment;
  - FLAGGED or EXPLODED: no-op.
-/
def uncover : Nat → Board → Nat × Nat → Board
  | 0, b, _ => b
  | fuel+1, b, q =>
    if (b.cell q).state = CellState.COVERED then
      if (b.cell q).is_mine then
        b.setCell q { b.cell q with state := CellState.EXPLODED }
      else
        if (b.cell q).neighbors = 0 then
          (nbrs b.w b.h q.1 q.2).foldl (fun acc r => uncover fuel acc r)
            (b.setCell q { b.cell q with state := CellState.UNCOVERED })
        else b.setCell q { b.cell q with state := CellState.UNCOVERED }
    else if (b.cell q).state = CellState.UNCOVERED then
      if flaggedNbrCount b q = (b.cell q).neighbors then
        (nbrs b.w b.h q.1 q.2).foldl
          (fun acc r =>
            if (acc.cell r).state = CellState.COVERED then uncover fuel acc r else acc)
          b
      else b
    else b

/-- The reveal operation: uncover with fuel provably sufficient for the C
recursion (see uncover_fuel_stable). -/
def reveal (b : Board) (q : Nat × Nat) : Board :=
  uncover (2 * (b.w * b.h) + 2) b q

/-- flag (mines.c lines 179-187): COVERED toggles to FLAGGED and back,
anything else is untouched. -/
def flag (b : Board) (q : Nat × Nat) : Board :=
  let c := b.cell q
  if c.state = CellState.COVERED then
    b.setCell q { c with state := CellState.FLAGGED }
  else if c.state = CellState.FLAGGED then
    b.setCell q { c with state := CellState.COVERED }
  else b

/-- One write of the calculate_neighbors loop body (mines.c line 223). -/
def updNbrs (acc : Board) (p : Nat × Nat) : Board :=
  acc.setCell p { acc.cell p with neighbors := countNbrMines acc p.1 p.2 }

/-- calculate_neighbors (mines.c lines 207-226): for every cell, in row-major
order, store the count of adjacent mines. -/
def calculate_neighbors (b : Board) : Board :=
  (List.range b.h).foldl
    (fun acc y => (List.range b.w).foldl (fun acc2 x => updNbrs acc2 (x, y)) acc)
    b

/--
generate_mines (mines.c lines 189-205): repeatedly draw a random cell
(x = rand()%width, y = rand()%height); if it is not the avoided first-click
cell and not already a mine, mark it a mine, until num_mines mines are
placed.  The random stream is an explicit argument (picks k is the pair of
rand() draws of iteration k); fuel bounds the loop, none meaning the fuel
ran out before placement completed.
-/
def generate_mines (nm sx sy : Nat) (picks : Nat → Nat × Nat) :
    Nat → Nat → Nat → Board → Option Board
  | 0, _, i, b => if i < nm then none else some b
  | fuel+1, k, i, b =>
    if i < nm then
      let x := (picks k).1 % b.w
      let y := (picks k).2 % b.h
      if ¬(x = sx ∧ y = sy) then
        if (b.cell (x, y)).is_mine then
          generate_mines nm sx sy picks fuel (k+1) i b
        else
          generate_mines nm sx sy picks fuel (k+1) (i+1)
            (b.setCell (x, y) { b.cell (x, y) with is_mine := true })
      else generate_mines nm sx sy picks fuel (k+1) i b
    else some b

/--
The win/loss/progress decision of draw (mines.c lines 228-303): gameover is
set iff some cell is EXPLODED; uncovers_remaining starts at
height*width - num_mines (as a C int) and is decremented once per UNCOVERED
cell; after the scan the status line shows Game Over when gameover, else
You Win when uncovers_remaining == 0, else the in-progress line.
-/
def game_status (b : Board) (nm : Nat) : GameStatus :=
  if explodedCount b ≠ 0 then GameStatus.Lost
  else if ((b.h : Int) * (b.w : Int) - (nm : Int) - (uncoveredCount b : Int) = 0) then
    GameStatus.Won
  else GameStatus.InProgress

/-- The globals of mines.c that the option parser and main touch
(lines 52-61): height, width, num_mines, and the custom_num_mines flag
(initialized false and, notably, never written again anywhere in the file). -/
structure Globals where
  height : Int
  width : Int
  num_mines : Int
  custom_num_mines : Bool
  game_active : Bool

def initGlobals : Globals :=
  { height := 20, width := 20, num_mines := 60,
    custom_num_mines := false, game_active := true }

/-- parse_opt (mines.c lines 93-121): key h, w, m store the parsed integer
into the corresponding global; a value that fails to parse (modelled as
none) prints a message and clears game_active.  No branch writes
custom_num_mines. -/
def parse_opt (g : Globals) (key : Char) (arg : Option Int) : Globals :=
  match key, arg with
  | 'h', some v => { g with height := v }
  | 'w', some v => { g with width := v }
  | 'm', some v => { g with num_mines := v }
  | 'h', none => { g with game_active := false }
  | 'w', none => { g with game_active := false }
  | 'm', none => { g with game_active := false }
  | _, _ => g

def parseArgs (g : Globals) (args : List (Char × Option Int)) : Globals :=
  args.foldl (fun acc kv => parse_opt acc kv.1 kv.2) g

/-- The number of mines the game is then played with: main (mines.c lines
314-316) overwrites num_mines with width*height/6 whenever custom_num_mines
is false. -/
def mainNumMines (g : Globals) : Int :=
  if g.custom_num_mines then g.num_mines else g.width * g.height / 6

/-! ### Basic lemmas about the board representation -/

theorem setCell_w (b : Board) (q : Nat × Nat) (c : Cell) : (b.setCell q c).w = b.w := rfl

theorem setCell_h (b : Board) (q : Nat × Nat) (c : Cell) : (b.setCell q c).h = b.h := rfl

theorem cell_setCell_self (b : Board) (q : Nat × Nat) (c : Cell) :
    (b.setCell q c).cell q = c := by
  simp [Board.setCell]

theorem cell_setCell_ne (b : Board) (q p : Nat × Nat) (c : Cell) (hpq : p ≠ q) :
    (b.setCell q c).cell p = b.cell p := by
  simp [Board.setCell, hpq]

theorem mem_grid {b : Board} {p : Nat × Nat} : p ∈ grid b ↔ p.1 < b.w ∧ p.2 < b.h := by
  simp [grid]

theorem card_grid (b : Board) : (grid b).card = b.w * b.h := by
  simp [grid]

/-! ### Unfolding lemmas for uncover, one per branch of the C code -/

theorem uncover_zero (b : Board) (q : Nat × Nat) : uncover 0 b q = b := rfl

theorem uncover_covered_mine {b : Board} {q : Nat × Nat} (f : Nat)
    (h1 : (b.cell q).state = CellState.COVERED) (h2 : (b.cell q).is_mine = true) :
    uncover (f+1) b q = b.setCell q { b.cell q with state := CellState.EXPLODED } := by
  simp [uncover, h1, h2]

theorem uncover_covered_zero {b : Board} {q : Nat × Nat} (f : Nat)
    (h1 : (b.cell q).state = CellState.COVERED) (h2 : (b.cell q).is_mine = false)
    (h3 : (b.cell q).neighbors = 0) :
    uncover (f+1) b q =
      (nbrs b.w b.h q.1 q.2).foldl (fun acc r => uncover f acc r)
        (b.setCell q { b.cell q with state := CellState.UNCOVERED }) := by
  simp [uncover, h1, h2, h3]

theorem uncover_covered_pos {b : Board} {q : Nat × Nat} (f : Nat)
    (h1 : (b.cell q).state = CellState.COVERED) (h2 : (b.cell q).is_mine = false)
    (h3 : (b.cell q).neighbors ≠ 0) :
    uncover (f+1) b q = b.setCell q { b.cell q with state := CellState.UNCOVERED } := by
  simp [uncover, h1, h2, h3]

theorem uncover_chord_eq {b : Board} {q : Nat × Nat} (f : Nat)
    (h1 : (b.cell q).state = CellState.UNCOVERED)
    (h2 : flaggedNbrCount b q = (b.cell q).neighbors) :
    uncover (f+1) b q =
      (nbrs b.w b.h q.1 q.2).foldl
        (fun acc r =>
          if (acc.cell r).state = CellState.COVERED then uncover f acc r else acc) b := by
  simp [uncover, h1, h2]

theorem uncover_chord_ne {b : Board} {q : Nat × Nat} (f : Nat)
    (h1 : (b.cell q).state = CellState.UNCOVERED)
    (h2 : flaggedNbrCount b q ≠ (b.cell q).neighbors) :
    uncover (f+1) b q = b := by
  simp [uncover, h1, h2]

theorem uncover_inert {b : Board} {q : Nat × Nat} (f : Nat)
    (h1 : (b.cell q).state ≠ CellState.COVERED)
    (h2 : (b.cell q).state ≠ CellState.UNCOVERED) :
    uncover (f+1) b q = b := by
  simp [uncover, h1, h2]

/-! ### The one-way transition relation of a reveal

During uncover, the only state changes are COVERED to UNCOVERED
(non-mine) and COVERED to EXPLODED (mine). -/

/-- The cell a COVERED cell becomes when uncover transitions it. -/
def coveredTo (c : Cell) : Cell :=
  { c with state := if c.is_mine then CellState.EXPLODED else CellState.UNCOVERED }

/-- b' differs from b only by transitioning some COVERED cells. -/
def StepRel (b b' : Board) : Prop :=
  b'.w = b.w ∧ b'.h = b.h ∧
  ∀ p, b'.cell p = b.cell p ∨
    ((b.cell p).state = CellState.COVERED ∧ b'.cell p = coveredTo (b.cell p))

theorem coveredTo_state_ne (c : Cell) : (coveredTo c).state ≠ CellState.COVERED := by
  cases hm : c.is_mine <;> simp [coveredTo, hm]

theorem coveredTo_state_ne_flagged (c : Cell) : (coveredTo c).state ≠ CellState.FLAGGED := by
  cases hm : c.is_mine <;> simp [coveredTo, hm]

theorem stepRel_refl (b : Board) : StepRel b b :=
  ⟨rfl, rfl, fun _ => Or.inl rfl⟩

theorem stepRel_trans {a b c : Board} (h1 : StepRel a b) (h2 : StepRel b c) : StepRel a c := by
  obtain ⟨hw1, hh1, h1⟩ := h1
  obtain ⟨hw2, hh2, h2⟩ := h2
  refine ⟨hw2.trans hw1, hh2.trans hh1, fun p => ?_⟩
  rcases h2 p with h2p | ⟨hcov2, h2p⟩
  · rcases h1 p with h1p | ⟨hcov1, h1p⟩
    · exact Or.inl (h2p.trans h1p)
    · exact Or.inr ⟨hcov1, h2p.trans h1p⟩
  · rcases h1 p with h1p | ⟨hcov1, h1p⟩
    · rw [h1p] at hcov2 h2p
      exact Or.inr ⟨hcov2, h2p⟩
    · rw [h1p] at hcov2
      exact absurd hcov2 (coveredTo_state_ne _)

theorem StepRel.w_eq {b b' : Board} (h : StepRel b b') : b'.w = b.w := h.1

theorem StepRel.h_eq {b b' : Board} (h : StepRel b b') : b'.h = b.h := h.2.1

theorem stepRel_is_mine {b b' : Board} (h : StepRel b b') (p : Nat × Nat) :
    (b'.cell p).is_mine = (b.cell p).is_mine := by
  rcases h.2.2 p with hp | ⟨_, hp⟩
  · rw [hp]
  · rw [hp]
    rfl

theorem stepRel_neighbors {b b' : Board} (h : StepRel b b') (p : Nat × Nat) :
    (b'.cell p).neighbors = (b.cell p).neighbors := by
  rcases h.2.2 p with hp | ⟨_, hp⟩
  · rw [hp]
  · rw [hp]
    rfl

theorem stepRel_of_ne_covered {b b' : Board} (h : StepRel b b') (p : Nat × Nat)
    (hnc : (b.cell p).state ≠ CellState.COVERED) : b'.cell p = b.cell p := by
  rcases h.2.2 p with hp | ⟨hcov, _⟩
  · exact hp
  · exact absurd hcov hnc

/-- Generic preservation of a reflexive transitive relation along a fold. -/
theorem foldl_rel {α : Type} {R : Board → Board → Prop}
    (hrefl : ∀ x, R x x) (htrans : ∀ x y z, R x y → R y z → R x z)
    {g : Board → α → Board} {L : List α}
    (hg : ∀ acc x, x ∈ L → R acc (g acc x)) (b : Board) :
    R b (L.foldl g b) := by
  induction L generalizing b with
  | nil => exact hrefl b
  | cons a t ih =>
    exact htrans _ _ _ (hg b a (by simp))
      (ih (fun acc x hx => hg acc x (by simp [hx])) _)

theorem uncover_stepRel : ∀ (f : Nat) (b : Board) (q : Nat × Nat), StepRel b (uncover f b q) := by
  intro f
  induction f with
  | zero => intro b q; exact stepRel_refl b
  | succ f ih =>
    intro b q
    by_cases h1 : (b.cell q).state = CellState.COVERED
    · by_cases h2 : (b.cell q).is_mine
      · rw [uncover_covered_mine f h1 h2]
        refine ⟨rfl, rfl, fun p => ?_⟩
        by_cases hpq : p = q
        · subst hpq
          rw [cell_setCell_self]
          exact Or.inr ⟨h1, by simp [coveredTo, h2]⟩
        · exact Or.inl (cell_setCell_ne _ _ _ _ hpq)
      · have h2' : (b.cell q).is_mine = false := by simpa using h2
        have hb1 : StepRel b (b.setCell q { b.cell q with state := CellState.UNCOVERED }) := by
          refine ⟨rfl, rfl, fun p => ?_⟩
          by_cases hpq : p = q
          · subst hpq
            rw [cell_setCell_self]
            exact Or.inr ⟨h1, by simp [coveredTo, h2']⟩
          · exact Or.inl (cell_setCell_ne _ _ _ _ hpq)
        by_cases h3 : (b.cell q).neighbors = 0
        · rw [uncover_covered_zero f h1 h2' h3]
          exact stepRel_trans hb1
            (foldl_rel stepRel_refl (fun _ _ _ => stepRel_trans)
              (fun acc r _ => ih acc r) _)
        · rw [uncover_covered_pos f h1 h2' h3]
          exact hb1
    · by_cases h4 : (b.cell q).state = CellState.UNCOVERED
      · by_cases h5 : flaggedNbrCount b q = (b.cell q).neighbors
        · rw [uncover_chord_eq f h4 h5]
          refine foldl_rel stepRel_refl (fun _ _ _ => stepRel_trans) (fun acc r _ => ?_) b
          by_cases hc : (acc.cell r).state = CellState.COVERED
          · simpa [hc] using ih acc r
          · simp [hc, stepRel_refl]
        · rw [uncover_chord_ne f h4 h5]
          exact stepRel_refl b
      · rw [uncover_inert f h1 h4]
        exact stepRel_refl b

/-- After one recursion step on q with positive fuel, q is never COVERED. -/
theorem uncover_succ_ne_covered (f : Nat) (b : Board) (q : Nat × Nat) :
    ((uncover (f+1) b q).cell q).state ≠ CellState.COVERED := by
  by_cases h1 : (b.cell q).state = CellState.COVERED
  · by_cases h2 : (b.cell q).is_mine
    · rw [uncover_covered_mine f h1 h2, cell_setCell_self]
      simp
    · have h2' : (b.cell q).is_mine = false := by simpa using h2
      by_cases h3 : (b.cell q).neighbors = 0
      · rw [uncover_covered_zero f h1 h2' h3]
        have hb1 : ((b.setCell q { b.cell q with state := CellState.UNCOVERED }).cell q).state
            = CellState.UNCOVERED := by rw [cell_setCell_self]
        have hfold := foldl_rel stepRel_refl (fun _ _ _ => stepRel_trans)
          (fun acc r _ => uncover_stepRel f acc r)
          (b.setCell q { b.cell q with state := CellState.UNCOVERED })
          (g := fun acc r => uncover f acc r) (L := nbrs b.w b.h q.1 q.2)
        rw [stepRel_of_ne_covered hfold q (by rw [hb1]; simp), hb1]
        simp
      · rw [uncover_covered_pos f h1 h2' h3, cell_setCell_self]
        simp
  · by_cases h4 : (b.cell q).state = CellState.UNCOVERED
    · by_cases h5 : flaggedNbrCount b q = (b.cell q).neighbors
      · rw [uncover_chord_eq f h4 h5]
        have hfold := foldl_rel stepRel_refl (fun _ _ _ => stepRel_trans)
          (fun acc r _ => ?_) b
          (g := fun acc r =>
            if (acc.cell r).state = CellState.COVERED then uncover f acc r else acc)
          (L := nbrs b.w b.h q.1 q.2)
        · rw [stepRel_of_ne_covered hfold q h1, h4]
          simp
        · by_cases hc : (acc.cell r).state = CellState.COVERED
          · simpa [hc] using uncover_stepRel f acc r
          · simp [hc, stepRel_refl]
      · rw [uncover_chord_ne f h4 h5]
        exact h1
    · rw [uncover_inert f h1 h4]
      exact h1

/-! ### Counting lemmas -/

theorem grid_eq_of_stepRel {b b' : Board} (h : StepRel b b') : grid b' = grid b := by
  unfold grid
  rw [h.w_eq, h.h_eq]

theorem mineCount_eq_of_stepRel {b b' : Board} (h : StepRel b b') :
    mineCount b' = mineCount b := by
  unfold mineCount
  rw [grid_eq_of_stepRel h]
  exact congrArg Finset.card
    (Finset.filter_congr (fun p _ => by rw [stepRel_is_mine h p]))

theorem coveredCount_le_of_stepRel {b b' : Board} (h : StepRel b b') :
    coveredCount b' ≤ coveredCount b := by
  unfold coveredCount stateCount
  rw [grid_eq_of_stepRel h]
  apply Finset.card_le_card
  intro p hp
  rw [Finset.mem_filter] at hp ⊢
  refine ⟨hp.1, ?_⟩
  rcases h.2.2 p with hc | ⟨hcov, _⟩
  · rw [← hc]
    exact hp.2
  · exact hcov

theorem coveredCount_pos (b : Board) (q : Nat × Nat) (hq : q ∈ grid b)
    (hcov : (b.cell q).state = CellState.COVERED) : 1 ≤ coveredCount b := by
  unfold coveredCount stateCount
  exact Finset.card_pos.mpr ⟨q, Finset.mem_filter.mpr ⟨hq, hcov⟩⟩

theorem coveredCount_setCell_succ (b : Board) (q : Nat × Nat) (c : Cell)
    (hq : q ∈ grid b) (hcov : (b.cell q).state = CellState.COVERED)
    (hc : c.state ≠ CellState.COVERED) :
    coveredCount (b.setCell q c) + 1 = coveredCount b := by
  unfold coveredCount stateCount
  have hfe : (grid b).filter (fun p => ((b.setCell q c).cell p).state = CellState.COVERED)
      = ((grid b).filter (fun p => (b.cell p).state = CellState.COVERED)).erase q := by
    ext p
    rw [Finset.mem_erase, Finset.mem_filter, Finset.mem_filter]
    constructor
    · rintro ⟨hpg, hps⟩
      by_cases hpq : p = q
      · subst hpq
        rw [cell_setCell_self] at hps
        exact absurd hps hc
      · rw [cell_setCell_ne _ _ _ _ hpq] at hps
        exact ⟨hpq, hpg, hps⟩
    · rintro ⟨hpq, hpg, hps⟩
      rw [cell_setCell_ne _ _ _ _ hpq]
      exact ⟨hpg, hps⟩
  have hmem : q ∈ (grid b).filter (fun p => (b.cell p).state = CellState.COVERED) :=
    Finset.mem_filter.mpr ⟨hq, hcov⟩
  have hpos : 0 < ((grid b).filter (fun p => (b.cell p).state = CellState.COVERED)).card :=
    Finset.card_pos.mpr ⟨q, hmem⟩
  have hgrid : grid (b.setCell q c) = grid b := rfl
  rw [hgrid, hfe, Finset.card_erase_of_mem hmem]
  omega

theorem coveredCount_le (b : Board) : coveredCount b ≤ b.w * b.h := by
  unfold coveredCount stateCount
  calc ((grid b).filter (fun p => (b.cell p).state = CellState.COVERED)).card
      ≤ (grid b).card := Finset.card_le_card (Finset.filter_subset _ _)
    _ = b.w * b.h := card_grid b

/-! ### Neighbour-list lemmas -/

theorem nbrs_mem_lt {w h x y : Nat} {r : Nat × Nat} (hr : r ∈ nbrs w h x y) :
    r.1 < w ∧ r.2 < h := by
  simp only [nbrs, List.mem_filterMap, List.mem_range] at hr
  obtain ⟨d, _, hif⟩ := hr
  split_ifs at hif with hg
  cases hif
  exact ⟨hg.2.1, hg.2.2.2.1⟩

/-! ### Fuel stability: the C recursion terminates

With fuel at least 2 * coveredCount + 2 the result no longer depends on the
fuel, because every recursive call either happens on a cell that was just
transitioned out of COVERED (shrinking the count) or immediately recurses
into such a cell. -/

def FuelInsensitive (n : Nat) : Prop :=
  ∀ (b : Board) (q : Nat × Nat) (f g : Nat), q.1 < b.w → q.2 < b.h → coveredCount b ≤ n →
    2*n+2 ≤ f → 2*n+2 ≤ g → uncover f b q = uncover g b q

def FuelInsensitiveCov (n : Nat) : Prop :=
  ∀ (b : Board) (q : Nat × Nat) (f g : Nat), q.1 < b.w → q.2 < b.h →
    (b.cell q).state = CellState.COVERED → coveredCount b ≤ n →
    2*n+1 ≤ f → 2*n+1 ≤ g → uncover f b q = uncover g b q

theorem foldl_uncover_fuel_eq {m : Nat} (hA : FuelInsensitive m) :
    ∀ (L : List (Nat × Nat)) (b : Board) (f g : Nat),
      (∀ r ∈ L, r.1 < b.w ∧ r.2 < b.h) → coveredCount b ≤ m → 2*m+2 ≤ f → 2*m+2 ≤ g →
      L.foldl (fun acc r => uncover f acc r) b = L.foldl (fun acc r => uncover g acc r) b := by
  intro L
  induction L with
  | nil =>
    intro b f g _ _ _ _
    rfl
  | cons a t ih =>
    intro b f g hb hc hf hg
    have ha := hA b a f g (hb a (by simp)).1 (hb a (by simp)).2 hc hf hg
    simp only [List.foldl_cons]
    rw [← ha]
    apply ih
    · intro r hr
      rw [(uncover_stepRel f b a).w_eq, (uncover_stepRel f b a).h_eq]
      exact hb r (by simp [hr])
    · exact le_trans (coveredCount_le_of_stepRel (uncover_stepRel f b a)) hc
    · exact hf
    · exact hg

theorem foldl_chord_fuel_eq {n : Nat} (hB : FuelInsensitiveCov n) :
    ∀ (L : List (Nat × Nat)) (b : Board) (f g : Nat),
      (∀ r ∈ L, r.1 < b.w ∧ r.2 < b.h) → coveredCount b ≤ n → 2*n+1 ≤ f → 2*n+1 ≤ g →
      L.foldl (fun acc r =>
        if (acc.cell r).state = CellState.COVERED then uncover f acc r else acc) b
      = L.foldl (fun acc r =>
        if (acc.cell r).state = CellState.COVERED then uncover g acc r else acc) b := by
  intro L
  induction L with
  | nil =>
    intro b f g _ _ _ _
    rfl
  | cons a t ih =>
    intro b f g hb hc hf hg
    simp only [List.foldl_cons]
    by_cases hcv : (b.cell a).state = CellState.COVERED
    · have ha := hB b a f g (hb a (by simp)).1 (hb a (by simp)).2 hcv hc hf hg
      rw [if_pos hcv, if_pos hcv, ← ha]
      apply ih
      · intro r hr
        rw [(uncover_stepRel f b a).w_eq, (uncover_stepRel f b a).h_eq]
        exact hb r (by simp [hr])
      · exact le_trans (coveredCount_le_of_stepRel (uncover_stepRel f b a)) hc
      · exact hf
      · exact hg
    · rw [if_neg hcv, if_neg hcv]
      apply ih
      · intro r hr
        exact hb r (by simp [hr])
      · exact hc
      · exact hf
      · exact hg

theorem fuelCov_of_lt (n : Nat) (ihA : ∀ m, m < n → FuelInsensitive m) :
    FuelInsensitiveCov n := by
  intro b q f g hx hy hcov hc hf hg
  obtain ⟨f', rfl⟩ : ∃ f', f = f'+1 := ⟨f-1, by omega⟩
  obtain ⟨g', rfl⟩ : ∃ g', g = g'+1 := ⟨g-1, by omega⟩
  by_cases h2 : (b.cell q).is_mine
  · rw [uncover_covered_mine f' hcov h2, uncover_covered_mine g' hcov h2]
  · have h2' : (b.cell q).is_mine = false := by simpa using h2
    by_cases h3 : (b.cell q).neighbors = 0
    · rw [uncover_covered_zero f' hcov h2' h3, uncover_covered_zero g' hcov h2' h3]
      have hq : q ∈ grid b := mem_grid.mpr ⟨hx, hy⟩
      have hpos : 1 ≤ coveredCount b := coveredCount_pos b q hq hcov
      obtain ⟨m, rfl⟩ : ∃ m, n = m+1 := ⟨n-1, by omega⟩
      have hdec : coveredCount (b.setCell q { b.cell q with state := CellState.UNCOVERED }) + 1
          = coveredCount b :=
        coveredCount_setCell_succ b q _ hq hcov (by simp)
      apply foldl_uncover_fuel_eq (ihA m (by omega))
      · intro r hr
        exact nbrs_mem_lt hr
      · omega
      · omega
      · omega
    · rw [uncover_covered_pos f' hcov h2' h3, uncover_covered_pos g' hcov h2' h3]

theorem fuelInsensitive_of (n : Nat) (hB : FuelInsensitiveCov n) : FuelInsensitive n := by
  intro b q f g hx hy hc hf hg
  by_cases h1 : (b.cell q).state = CellState.COVERED
  · exact hB b q f g hx hy h1 hc (by omega) (by omega)
  · obtain ⟨f', rfl⟩ : ∃ f', f = f'+1 := ⟨f-1, by omega⟩
    obtain ⟨g', rfl⟩ : ∃ g', g = g'+1 := ⟨g-1, by omega⟩
    by_cases h4 : (b.cell q).state = CellState.UNCOVERED
    · by_cases h5 : flaggedNbrCount b q = (b.cell q).neighbors
      · rw [uncover_chord_eq f' h4 h5, uncover_chord_eq g' h4 h5]
        apply foldl_chord_fuel_eq hB
        · intro r hr
          exact nbrs_mem_lt hr
        · exact hc
        · omega
        · omega
      · rw [uncover_chord_ne f' h4 h5, uncover_chord_ne g' h4 h5]
    · rw [uncover_inert f' h1 h4, uncover_inert g' h1 h4]

theorem fuelInsensitive_all : ∀ n, FuelInsensitive n := by
  intro n
  induction n using Nat.strong_induction_on with
  | _ n ih => exact fuelInsensitive_of n (fuelCov_of_lt n ih)

theorem uncover_fuel_stable (b : Board) (q : Nat × Nat) (hx : q.1 < b.w) (hy : q.2 < b.h)
    (f g : Nat) (hf : 2 * coveredCount b + 2 ≤ f) (hg : 2 * coveredCount b + 2 ≤ g) :
    uncover f b q = uncover g b q :=
  fuelInsensitive_all (coveredCount b) b q f g hx hy le_rfl hf hg

theorem uncover_eq_reveal (b : Board) (q : Nat × Nat) (hx : q.1 < b.w) (hy : q.2 < b.h)
    (f : Nat) (hf : 2 * coveredCount b + 2 ≤ f) : uncover f b q = reveal b q := by
  have hle := coveredCount_le b
  exact uncover_fuel_stable b q hx hy f (2*(b.w*b.h)+2) hf (by omega)

theorem reveal_stepRel (b : Board) (q : Nat × Nat) : StepRel b (reveal b q) :=
  uncover_stepRel _ b q

/-! ### Completeness of the zero cascade

NewSettled b b' says: every cell that went from COVERED in b to UNCOVERED in
b' and has a zero neighbour count has no COVERED neighbour left in b'.  With
sufficient fuel every uncover call establishes this, which is the engine of
the flood-fill completeness proof. -/

def NewSettled (b b' : Board) : Prop :=
  ∀ p, (b.cell p).state = CellState.COVERED → (b'.cell p).state = CellState.UNCOVERED →
    (b'.cell p).neighbors = 0 →
    ∀ r ∈ nbrs b.w b.h p.1 p.2, (b'.cell r).state ≠ CellState.COVERED

theorem newSettled_refl (b : Board) : NewSettled b b := by
  intro p hc hu _ _ _
  rw [hc] at hu
  simp at hu

theorem newSettled_trans {b b1 b2 : Board} (h01 : StepRel b b1) (hn01 : NewSettled b b1)
    (h12 : StepRel b1 b2) (hn12 : NewSettled b1 b2) : NewSettled b b2 := by
  intro p hc hu hz r hr
  by_cases hcv1 : (b1.cell p).state = CellState.COVERED
  · have hall := hn12 p hcv1 hu hz
    rw [h01.w_eq, h01.h_eq] at hall
    exact hall r hr
  · rcases h01.2.2 p with hp | ⟨_, hp⟩
    · rw [hp] at hcv1
      exact absurd hc hcv1
    · have hstate1 : (b1.cell p).state = CellState.UNCOVERED := by
        rw [hp]
        by_cases hm : (b.cell p).is_mine
        · exfalso
          have h2p : b2.cell p = b1.cell p :=
            stepRel_of_ne_covered h12 p (by rw [hp]; simp [coveredTo, hm])
          rw [h2p, hp] at hu
          simp [coveredTo, hm] at hu
        · simp [coveredTo, hm]
      have hz1 : (b1.cell p).neighbors = 0 := by
        rw [← stepRel_neighbors h12 p]
        exact hz
      have hall := hn01 p hc hstate1 hz1
      have h1r := hall r hr
      rw [stepRel_of_ne_covered h12 r h1r]
      exact h1r

def CascadeSettles (n : Nat) : Prop :=
  ∀ (b : Board) (q : Nat × Nat) (f : Nat), q.1 < b.w → q.2 < b.h → coveredCount b ≤ n →
    2*n+2 ≤ f → NewSettled b (uncover f b q)

def CascadeSettlesCov (n : Nat) : Prop :=
  ∀ (b : Board) (q : Nat × Nat) (f : Nat), q.1 < b.w → q.2 < b.h →
    (b.cell q).state = CellState.COVERED → coveredCount b ≤ n →
    2*n+1 ≤ f → NewSettled b (uncover f b q)

theorem foldl_uncover_newSettled {m : Nat} (hA : CascadeSettles m) :
    ∀ (L : List (Nat × Nat)) (b : Board) (f : Nat),
      (∀ r ∈ L, r.1 < b.w ∧ r.2 < b.h) → coveredCount b ≤ m → 2*m+2 ≤ f →
      NewSettled b (L.foldl (fun acc r => uncover f acc r) b) := by
  intro L
  induction L with
  | nil =>
    intro b f _ _ _
    exact newSettled_refl b
  | cons a t ih =>
    intro b f hb hc hf
    simp only [List.foldl_cons]
    have hsr1 : StepRel b (uncover f b a) := uncover_stepRel f b a
    have hns1 : NewSettled b (uncover f b a) :=
      hA b a f (hb a (by simp)).1 (hb a (by simp)).2 hc hf
    have hsr2 : StepRel (uncover f b a)
        (t.foldl (fun acc r => uncover f acc r) (uncover f b a)) :=
      foldl_rel stepRel_refl (fun _ _ _ => stepRel_trans)
        (fun acc r _ => uncover_stepRel f acc r) _
    have hns2 : NewSettled (uncover f b a)
        (t.foldl (fun acc r => uncover f acc r) (uncover f b a)) := by
      apply ih
      · intro r hr
        rw [hsr1.w_eq, hsr1.h_eq]
        exact hb r (by simp [hr])
      · exact le_trans (coveredCount_le_of_stepRel hsr1) hc
      · exact hf
    exact newSettled_trans hsr1 hns1 hsr2 hns2

theorem foldl_chord_newSettled {n : Nat} (hB : CascadeSettlesCov n) :
    ∀ (L : List (Nat × Nat)) (b : Board) (f : Nat),
      (∀ r ∈ L, r.1 < b.w ∧ r.2 < b.h) → coveredCount b ≤ n → 2*n+1 ≤ f →
      NewSettled b (L.foldl (fun acc r =>
        if (acc.cell r).state = CellState.COVERED then uncover f acc r else acc) b) := by
  intro L
  induction L with
  | nil =>
    intro b f _ _ _
    exact newSettled_refl b
  | cons a t ih =>
    intro b f hb hc hf
    simp only [List.foldl_cons]
    by_cases hcv : (b.cell a).state = CellState.COVERED
    · rw [if_pos hcv]
      have hsr1 : StepRel b (uncover f b a) := uncover_stepRel f b a
      have hns1 : NewSettled b (uncover f b a) :=
        hB b a f (hb a (by simp)).1 (hb a (by simp)).2 hcv hc hf
      have hsr2 : StepRel (uncover f b a)
          (t.foldl (fun acc r =>
            if (acc.cell r).state = CellState.COVERED then uncover f acc r else acc)
            (uncover f b a)) := by
        refine foldl_rel stepRel_refl (fun _ _ _ => stepRel_trans) (fun acc r _ => ?_) _
        by_cases hc2 : (acc.cell r).state = CellState.COVERED
        · simpa [hc2] using uncover_stepRel f acc r
        · simp [hc2, stepRel_refl]
      have hns2 : NewSettled (uncover f b a)
          (t.foldl (fun acc r =>
            if (acc.cell r).state = CellState.COVERED then uncover f acc r else acc)
            (uncover f b a)) := by
        apply ih
        · intro r hr
          rw [hsr1.w_eq, hsr1.h_eq]
          exact hb r (by simp [hr])
        · exact le_trans (coveredCount_le_of_stepRel hsr1) hc
        · exact hf
      exact newSettled_trans hsr1 hns1 hsr2 hns2
    · rw [if_neg hcv]
      apply ih
      · intro r hr
        exact hb r (by simp [hr])
      · exact hc
      · exact hf

/-- After a zero-cascade fold, every member of the folded list has left the
COVERED state. -/
theorem foldl_uncover_clears :
    ∀ (L : List (Nat × Nat)) (b : Board) (f : Nat), 1 ≤ f →
      ∀ r ∈ L, ((L.foldl (fun acc s => uncover f acc s) b).cell r).state
        ≠ CellState.COVERED := by
  intro L
  induction L with
  | nil =>
    intro b f _ r hr
    simp at hr
  | cons a t ih =>
    intro b f hf r hr
    simp only [List.foldl_cons]
    rcases List.mem_cons.mp hr with rfl | hrt
    · by_cases hat : r ∈ t
      · exact ih (uncover f b r) f hf r hat
      · obtain ⟨f', rfl⟩ : ∃ f', f = f'+1 := ⟨f-1, by omega⟩
        have h1 : ((uncover (f'+1) b r).cell r).state ≠ CellState.COVERED :=
          uncover_succ_ne_covered f' b r
        have hfold : StepRel (uncover (f'+1) b r)
            (t.foldl (fun acc s => uncover (f'+1) acc s) (uncover (f'+1) b r)) :=
          foldl_rel stepRel_refl (fun _ _ _ => stepRel_trans)
            (fun acc s _ => uncover_stepRel (f'+1) acc s) _
        rw [stepRel_of_ne_covered hfold r h1]
        exact h1
    · exact ih (uncover f b a) f hf r hrt

theorem cascadeCov_of_lt (n : Nat) (ihA : ∀ m, m < n → CascadeSettles m) :
    CascadeSettlesCov n := by
  intro b q f hx hy hcov hc hf
  obtain ⟨f', rfl⟩ : ∃ f', f = f'+1 := ⟨f-1, by omega⟩
  by_cases h2 : (b.cell q).is_mine
  · rw [uncover_covered_mine f' hcov h2]
    intro p hpc hpu _ _ _
    by_cases hpq : p = q
    · subst hpq
      rw [cell_setCell_self] at hpu
      simp at hpu
    · rw [cell_setCell_ne _ _ _ _ hpq] at hpu
      rw [hpc] at hpu
      simp at hpu
  · have h2' : (b.cell q).is_mine = false := by simpa using h2
    by_cases h3 : (b.cell q).neighbors = 0
    · rw [uncover_covered_zero f' hcov h2' h3]
      have hq : q ∈ grid b := mem_grid.mpr ⟨hx, hy⟩
      have hpos : 1 ≤ coveredCount b := coveredCount_pos b q hq hcov
      obtain ⟨m, rfl⟩ : ∃ m, n = m+1 := ⟨n-1, by omega⟩
      have hdec : coveredCount (b.setCell q { b.cell q with state := CellState.UNCOVERED }) + 1
          = coveredCount b :=
        coveredCount_setCell_succ b q _ hq hcov (by simp)
      have hbounds : ∀ r ∈ nbrs b.w b.h q.1 q.2,
          r.1 < (b.setCell q { b.cell q with state := CellState.UNCOVERED }).w
          ∧ r.2 < (b.setCell q { b.cell q with state := CellState.UNCOVERED }).h :=
        fun r hr => nbrs_mem_lt hr
      have hfold_ns : NewSettled (b.setCell q { b.cell q with state := CellState.UNCOVERED })
          ((nbrs b.w b.h q.1 q.2).foldl (fun acc r => uncover f' acc r)
            (b.setCell q { b.cell q with state := CellState.UNCOVERED })) :=
        foldl_uncover_newSettled (ihA m (by omega)) _ _ f' hbounds (by omega) (by omega)
      have hclears := foldl_uncover_clears (nbrs b.w b.h q.1 q.2)
        (b.setCell q { b.cell q with state := CellState.UNCOVERED }) f' (by omega)
      intro p hpc hpu hpz r hr
      by_cases hpq : p = q
      · subst hpq
        exact hclears r hr
      · have hpc1 : ((b.setCell q { b.cell q with state := CellState.UNCOVERED }).cell p).state
            = CellState.COVERED := by
          rw [cell_setCell_ne _ _ _ _ hpq]
          exact hpc
        exact hfold_ns p hpc1 hpu hpz r hr
    · rw [uncover_covered_pos f' hcov h2' h3]
      intro p hpc hpu hpz _ _
      by_cases hpq : p = q
      · subst hpq
        rw [cell_setCell_self] at hpz
        exact absurd hpz h3
      · rw [cell_setCell_ne _ _ _ _ hpq] at hpu
        rw [hpc] at hpu
        simp at hpu

theorem cascade_of (n : Nat) (hB : CascadeSettlesCov n) : CascadeSettles n := by
  intro b q f hx hy hc hf
  by_cases h1 : (b.cell q).state = CellState.COVERED
  · exact hB b q f hx hy h1 hc (by omega)
  · obtain ⟨f', rfl⟩ : ∃ f', f = f'+1 := ⟨f-1, by omega⟩
    by_cases h4 : (b.cell q).state = CellState.UNCOVERED
    · by_cases h5 : flaggedNbrCount b q = (b.cell q).neighbors
      · rw [uncover_chord_eq f' h4 h5]
        apply foldl_chord_newSettled hB
        · intro r hr
          exact nbrs_mem_lt hr
        · exact hc
        · omega
      · rw [uncover_chord_ne f' h4 h5]
        exact newSettled_refl b
    · rw [uncover_inert f' h1 h4]
      exact newSettled_refl b

theorem cascadeSettles_all : ∀ n, CascadeSettles n := by
  intro n
  induction n using Nat.strong_induction_on with
  | _ n ih => exact cascade_of n (cascadeCov_of_lt n ih)

theorem reveal_newSettled (b : Board) (q : Nat × Nat) (hx : q.1 < b.w) (hy : q.2 < b.h) :
    NewSettled b (reveal b q) := by
  have hle := coveredCount_le b
  exact cascadeSettles_all (coveredCount b) b q (2*(b.w*b.h)+2) hx hy le_rfl (by omega)

/-! ### The connected zero region and the scope of a cascade -/

/-- The connected zero region of s together with its boundary: s itself, and
transitively every neighbour of an already-included cell whose stored
neighbour count is zero.  Cells of the set with a positive count are exactly
the boundary: nothing is reachable through them. -/
inductive InRegion (b : Board) (s : Nat × Nat) : Nat × Nat → Prop
  | base : InRegion b s s
  | step (p q : Nat × Nat) : InRegion b s p → (b.cell p).neighbors = 0 →
      q ∈ nbrs b.w b.h p.1 p.2 → InRegion b s q

theorem inRegion_inb {b : Board} {s : Nat × Nat} (hsx : s.1 < b.w) (hsy : s.2 < b.h) :
    ∀ p, InRegion b s p → p.1 < b.w ∧ p.2 < b.h := by
  intro p hp
  induction hp with
  | base => exact ⟨hsx, hsy⟩
  | step p q _ _ hq _ => exact nbrs_mem_lt hq

/-- With correctly computed neighbour counts, no cell of the region or its
boundary is a mine: each is a neighbour of a cell counting zero mines. -/
theorem inRegion_not_mine {b : Board} {s : Nat × Nat}
    (hcount : ∀ p : Nat × Nat, p.1 < b.w → p.2 < b.h →
      (b.cell p).neighbors = countNbrMines b p.1 p.2)
    (hsx : s.1 < b.w) (hsy : s.2 < b.h) (hsm : (b.cell s).is_mine = false) :
    ∀ p, InRegion b s p → (b.cell p).is_mine = false := by
  intro p hp
  induction hp with
  | base => exact hsm
  | step p q hp hz hq _ =>
    have hpb := inRegion_inb hsx hsy p hp
    have hcz : countNbrMines b p.1 p.2 = 0 := by
      rw [← hcount p hpb.1 hpb.2]
      exact hz
    have hall := List.countP_eq_zero.mp hcz
    have := hall q hq
    simpa using this

/-- b is an intermediate board of a cascade from b0 started inside the
region: a one-way transition of b0 that only changed region cells. -/
def Scoped (b0 : Board) (s : Nat × Nat) (b : Board) : Prop :=
  StepRel b0 b ∧ ∀ p, b.cell p ≠ b0.cell p → InRegion b0 s p

theorem stepRel_setCell_covered (b : Board) (q : Nat × Nat) (c : Cell)
    (hcov : (b.cell q).state = CellState.COVERED) (hc : c = coveredTo (b.cell q)) :
    StepRel b (b.setCell q c) := by
  refine ⟨rfl, rfl, fun p => ?_⟩
  by_cases hpq : p = q
  · subst hpq
    rw [cell_setCell_self]
    exact Or.inr ⟨hcov, hc⟩
  · exact Or.inl (cell_setCell_ne _ _ _ _ hpq)

theorem scoped_setCell {b0 b : Board} {s q : Nat × Nat} (hb : Scoped b0 s b)
    (hq : InRegion b0 s q) (c : Cell)
    (hcov : (b.cell q).state = CellState.COVERED) (hc : c = coveredTo (b.cell q)) :
    Scoped b0 s (b.setCell q c) := by
  refine ⟨stepRel_trans hb.1 (stepRel_setCell_covered b q c hcov hc), fun p hp => ?_⟩
  by_cases hpq : p = q
  · subst hpq
    exact hq
  · rw [cell_setCell_ne _ _ _ _ hpq] at hp
    exact hb.2 p hp

/-- On a flag-free original board, every intermediate board of the cascade is
flag-free around any cell, so the chord branch can only fire on zero cells. -/
theorem scoped_flaggedNbrCount {b0 b : Board} {s : Nat × Nat} (hb : Scoped b0 s b)
    (hflag : ∀ p : Nat × Nat, p.1 < b0.w → p.2 < b0.h →
      (b0.cell p).state ≠ CellState.FLAGGED)
    (q : Nat × Nat) : flaggedNbrCount b q = 0 := by
  apply List.countP_eq_zero.mpr
  intro r hr
  have hrb : r.1 < b.w ∧ r.2 < b.h := nbrs_mem_lt hr
  rw [hb.1.w_eq, hb.1.h_eq] at hrb
  simp only [decide_eq_true_eq]
  rcases hb.1.2.2 r with hc | ⟨_, hc⟩
  · rw [hc]
    exact hflag r hrb.1 hrb.2
  · rw [hc]
    exact coveredTo_state_ne_flagged _

theorem uncover_scoped (b0 : Board) (s : Nat × Nat)
    (hflag : ∀ p : Nat × Nat, p.1 < b0.w → p.2 < b0.h →
      (b0.cell p).state ≠ CellState.FLAGGED) :
    ∀ (f : Nat) (b : Board) (q : Nat × Nat), Scoped b0 s b → InRegion b0 s q →
      Scoped b0 s (uncover f b q) := by
  intro f
  induction f with
  | zero => exact fun b q hb _ => hb
  | succ f ih =>
    intro b q hb hq
    have hwq : b.w = b0.w := hb.1.w_eq
    have hhq : b.h = b0.h := hb.1.h_eq
    by_cases h1 : (b.cell q).state = CellState.COVERED
    · by_cases h2 : (b.cell q).is_mine
      · rw [uncover_covered_mine f h1 h2]
        exact scoped_setCell hb hq _ h1 (by simp [coveredTo, h2])
      · have h2' : (b.cell q).is_mine = false := by simpa using h2
        have hb1 : Scoped b0 s (b.setCell q { b.cell q with state := CellState.UNCOVERED }) :=
          scoped_setCell hb hq _ h1 (by simp [coveredTo, h2'])
        by_cases h3 : (b.cell q).neighbors = 0
        · rw [uncover_covered_zero f h1 h2' h3]
          have hz0 : (b0.cell q).neighbors = 0 := by
            rw [← stepRel_neighbors hb.1 q]
            exact h3
          refine foldl_rel (R := fun x y => Scoped b0 s x → Scoped b0 s y)
            (fun x hx => hx) (fun x y z hxy hyz hx => hyz (hxy hx))
            (fun acc r hr hacc => ih acc r hacc ?_) _ hb1
          rw [hwq, hhq] at hr
          exact InRegion.step q r hq hz0 hr
        · rw [uncover_covered_pos f h1 h2' h3]
          exact hb1
    · by_cases h4 : (b.cell q).state = CellState.UNCOVERED
      · by_cases h5 : flaggedNbrCount b q = (b.cell q).neighbors
        · rw [uncover_chord_eq f h4 h5]
          have hz : (b.cell q).neighbors = 0 := by
            rw [← h5]
            exact scoped_flaggedNbrCount hb hflag q
          have hz0 : (b0.cell q).neighbors = 0 := by
            rw [← stepRel_neighbors hb.1 q]
            exact hz
          refine foldl_rel (R := fun x y => Scoped b0 s x → Scoped b0 s y)
            (fun x hx => hx) (fun x y z hxy hyz hx => hyz (hxy hx))
            (fun acc r hr hacc => ?_) _ hb
          by_cases hc2 : (acc.cell r).state = CellState.COVERED
          · rw [if_pos hc2]
            refine ih acc r hacc ?_
            rw [hwq, hhq] at hr
            exact InRegion.step q r hq hz0 hr
          · rw [if_neg hc2]
            exact hacc
        · rw [uncover_chord_ne f h4 h5]
          exact hb
      · rw [uncover_inert f h1 h4]
        exact hb

/-! ### Lemmas about flag -/

theorem Board.ext_cells {x y : Board} (hw : x.w = y.w) (hh : x.h = y.h)
    (hc : ∀ p, x.cell p = y.cell p) : x = y := by
  cases x with
  | mk xw xh xc =>
    cases y with
    | mk yw yh yc =>
      dsimp at hw hh hc
      subst hw
      subst hh
      have : xc = yc := funext hc
      rw [this]

theorem cell_state_update_id (c : Cell) (s : CellState) (hs : c.state = s) :
    { c with state := s } = c := by
  cases c
  cases hs
  rfl

theorem flag_covered (b : Board) (q : Nat × Nat) (h : (b.cell q).state = CellState.COVERED) :
    flag b q = b.setCell q { b.cell q with state := CellState.FLAGGED } := by
  simp [flag, h]

theorem flag_flagged (b : Board) (q : Nat × Nat) (h : (b.cell q).state = CellState.FLAGGED) :
    flag b q = b.setCell q { b.cell q with state := CellState.COVERED } := by
  simp [flag, h]

theorem flag_inert (b : Board) (q : Nat × Nat) (h1 : (b.cell q).state ≠ CellState.COVERED)
    (h2 : (b.cell q).state ≠ CellState.FLAGGED) : flag b q = b := by
  simp [flag, h1, h2]

theorem flag_cell (b : Board) (q p : Nat × Nat) :
    (flag b q).cell p = b.cell p
    ∨ (flag b q).cell p = { b.cell p with state := CellState.FLAGGED }
    ∨ (flag b q).cell p = { b.cell p with state := CellState.COVERED } := by
  by_cases h1 : (b.cell q).state = CellState.COVERED
  · rw [flag_covered b q h1]
    by_cases hpq : p = q
    · subst hpq
      rw [cell_setCell_self]
      exact Or.inr (Or.inl rfl)
    · exact Or.inl (cell_setCell_ne _ _ _ _ hpq)
  · by_cases h2 : (b.cell q).state = CellState.FLAGGED
    · rw [flag_flagged b q h2]
      by_cases hpq : p = q
      · subst hpq
        rw [cell_setCell_self]
        exact Or.inr (Or.inr rfl)
      · exact Or.inl (cell_setCell_ne _ _ _ _ hpq)
    · rw [flag_inert b q h1 h2]
      exact Or.inl rfl

theorem flag_w (b : Board) (q : Nat × Nat) : (flag b q).w = b.w := by
  by_cases h1 : (b.cell q).state = CellState.COVERED
  · rw [flag_covered b q h1]
    rfl
  · by_cases h2 : (b.cell q).state = CellState.FLAGGED
    · rw [flag_flagged b q h2]
      rfl
    · rw [flag_inert b q h1 h2]

theorem flag_h (b : Board) (q : Nat × Nat) : (flag b q).h = b.h := by
  by_cases h1 : (b.cell q).state = CellState.COVERED
  · rw [flag_covered b q h1]
    rfl
  · by_cases h2 : (b.cell q).state = CellState.FLAGGED
    · rw [flag_flagged b q h2]
      rfl
    · rw [flag_inert b q h1 h2]

theorem flag_is_mine (b : Board) (q p : Nat × Nat) :
    ((flag b q).cell p).is_mine = (b.cell p).is_mine := by
  rcases flag_cell b q p with hc | hc | hc
  · rw [hc]
  · rw [hc]
  · rw [hc]

theorem flag_mineCount (b : Board) (q : Nat × Nat) : mineCount (flag b q) = mineCount b := by
  unfold mineCount
  have hg : grid (flag b q) = grid b := by
    unfold grid
    rw [flag_w, flag_h]
  rw [hg]
  exact congrArg Finset.card (Finset.filter_congr (fun p _ => by rw [flag_is_mine b q p]))

/-! ### Reachable game states and the win and loss conditions -/

/-- Game states reachable after mine placement: an all-covered board with
exactly nm mines, evolved by arbitrary in-bounds reveal and flag operations,
as driven by the main input loop. -/
inductive Reachable (nm : Nat) : Board → Prop
  | init (b : Board)
      (hall : ∀ p : Nat × Nat, p.1 < b.w → p.2 < b.h →
        (b.cell p).state = CellState.COVERED)
      (hm : mineCount b = nm) : Reachable nm b
  | rstep (b : Board) (q : Nat × Nat) (hb : Reachable nm b)
      (hx : q.1 < b.w) (hy : q.2 < b.h) : Reachable nm (reveal b q)
  | fstep (b : Board) (q : Nat × Nat) (hb : Reachable nm b)
      (hx : q.1 < b.w) (hy : q.2 < b.h) : Reachable nm (flag b q)

theorem reachable_mineCount {nm : Nat} {b : Board} (hb : Reachable nm b) :
    mineCount b = nm := by
  induction hb with
  | init b hall hm => exact hm
  | rstep b q hb hx hy ih =>
    rw [mineCount_eq_of_stepRel (reveal_stepRel b q)]
    exact ih
  | fstep b q hb hx hy ih =>
    rw [flag_mineCount]
    exact ih

theorem reachable_mine_not_uncovered {nm : Nat} {b : Board} (hb : Reachable nm b) :
    ∀ p : Nat × Nat, p.1 < b.w → p.2 < b.h → (b.cell p).is_mine = true →
      (b.cell p).state ≠ CellState.UNCOVERED := by
  induction hb with
  | init b hall hm =>
    intro p hx hy _
    rw [hall p hx hy]
    simp
  | rstep b q hb hx hy ih =>
    intro p hpx hpy hpm
    have hsr := reveal_stepRel b q
    rw [hsr.w_eq] at hpx
    rw [hsr.h_eq] at hpy
    rcases hsr.2.2 p with hc | ⟨hcov, hc⟩
    · rw [hc] at hpm ⊢
      exact ih p hpx hpy hpm
    · rw [hc] at hpm ⊢
      have hm2 : (b.cell p).is_mine = true := hpm
      simp [coveredTo, hm2]
  | fstep b q hb hx hy ih =>
    intro p hpx hpy hpm
    rw [flag_w] at hpx
    rw [flag_h] at hpy
    rcases flag_cell b q p with hc | hc | hc
    · rw [hc] at hpm ⊢
      exact ih p hpx hpy hpm
    · rw [hc]
      simp
    · rw [hc]
      simp

theorem explodedCount_ne_zero_iff (b : Board) :
    explodedCount b ≠ 0 ↔
      ∃ p : Nat × Nat, p.1 < b.w ∧ p.2 < b.h ∧ (b.cell p).state = CellState.EXPLODED := by
  unfold explodedCount stateCount
  rw [← Nat.pos_iff_ne_zero, Finset.card_pos]
  constructor
  · rintro ⟨p, hp⟩
    rw [Finset.mem_filter, mem_grid] at hp
    exact ⟨p, hp.1.1, hp.1.2, hp.2⟩
  · rintro ⟨p, h1, h2, h3⟩
    exact ⟨p, Finset.mem_filter.mpr ⟨mem_grid.mpr ⟨h1, h2⟩, h3⟩⟩

/-- On a board where no mine is UNCOVERED and exactly nm cells are mines, the
counter of draw hits zero exactly when every non-mine cell is uncovered. -/
theorem won_count_iff (b : Board) (nm : Nat) (hm : mineCount b = nm)
    (hinv : ∀ p : Nat × Nat, p.1 < b.w → p.2 < b.h → (b.cell p).is_mine = true →
      (b.cell p).state ≠ CellState.UNCOVERED) :
    ((b.h : Int) * (b.w : Int) - (nm : Int) - (uncoveredCount b : Int) = 0)
    ↔ ∀ p : Nat × Nat, p.1 < b.w → p.2 < b.h → (b.cell p).is_mine = false →
        (b.cell p).state = CellState.UNCOVERED := by
  have hUN : (grid b).filter (fun p => (b.cell p).state = CellState.UNCOVERED)
      ⊆ (grid b).filter (fun p => (b.cell p).is_mine = false) := by
    intro p hp
    rw [Finset.mem_filter] at hp ⊢
    refine ⟨hp.1, ?_⟩
    rcases Bool.eq_false_or_eq_true (b.cell p).is_mine with ht | hf
    · exact absurd hp.2 (hinv p (mem_grid.mp hp.1).1 (mem_grid.mp hp.1).2 ht)
    · exact hf
  have hcongr : (grid b).filter (fun p => (b.cell p).is_mine = false)
      = (grid b).filter (fun p => ¬((b.cell p).is_mine = true)) :=
    Finset.filter_congr (fun p _ => by simp)
  have hsplit : ((grid b).filter (fun p => (b.cell p).is_mine = true)).card
      + ((grid b).filter (fun p => ¬((b.cell p).is_mine = true))).card = (grid b).card :=
    Finset.filter_card_add_filter_neg_card_eq_card (fun p => (b.cell p).is_mine = true)
  have hU_le : ((grid b).filter (fun p => (b.cell p).state = CellState.UNCOVERED)).card
      ≤ ((grid b).filter (fun p => (b.cell p).is_mine = false)).card :=
    Finset.card_le_card hUN
  have hcard : (grid b).card = b.w * b.h := card_grid b
  have hM : ((grid b).filter (fun p => (b.cell p).is_mine = true)).card = nm := hm
  have hUcard : uncoveredCount b
      = ((grid b).filter (fun p => (b.cell p).state = CellState.UNCOVERED)).card := rfl
  have hprod : (b.h : Int) * (b.w : Int) = ((b.h * b.w : Nat) : Int) := by
    push_cast
    ring
  have hcomm : b.h * b.w = b.w * b.h := Nat.mul_comm _ _
  constructor
  · intro hint
    rw [hprod] at hint
    have hNU_le : ((grid b).filter (fun p => (b.cell p).is_mine = false)).card
        ≤ ((grid b).filter (fun p => (b.cell p).state = CellState.UNCOVERED)).card := by
      rw [hcongr]
      omega
    have hset := Finset.eq_of_subset_of_card_le hUN hNU_le
    intro p h1 h2 h3
    have hpN : p ∈ (grid b).filter (fun p => (b.cell p).is_mine = false) :=
      Finset.mem_filter.mpr ⟨mem_grid.mpr ⟨h1, h2⟩, h3⟩
    rw [← hset] at hpN
    exact (Finset.mem_filter.mp hpN).2
  · intro hall
    have hNU : (grid b).filter (fun p => (b.cell p).is_mine = false)
        ⊆ (grid b).filter (fun p => (b.cell p).state = CellState.UNCOVERED) := by
      intro p hp
      rw [Finset.mem_filter] at hp ⊢
      exact ⟨hp.1, hall p (mem_grid.mp hp.1).1 (mem_grid.mp hp.1).2 hp.2⟩
    have hset : (grid b).filter (fun p => (b.cell p).state = CellState.UNCOVERED)
        = (grid b).filter (fun p => (b.cell p).is_mine = false) :=
      Finset.Subset.antisymm hUN hNU
    have hU2 : uncoveredCount b
        = ((grid b).filter (fun p => (b.cell p).is_mine = false)).card := by
      rw [hUcard, hset]
    rw [hprod]
    rw [hcongr] at hU2
    omega

/-- C1: for every reachable board state, the game status is Lost whenever any
cell is Exploded, and Won exactly when no cell is Exploded and every
non-mine cell is Uncovered. -/
theorem game_status_spec {nm : Nat} {b : Board} (hb : Reachable nm b) :
    ((∃ p : Nat × Nat, p.1 < b.w ∧ p.2 < b.h ∧ (b.cell p).state = CellState.EXPLODED) →
      game_status b nm = GameStatus.Lost)
    ∧ (game_status b nm = GameStatus.Won ↔
        (¬(∃ p : Nat × Nat, p.1 < b.w ∧ p.2 < b.h ∧ (b.cell p).state = CellState.EXPLODED)
         ∧ ∀ p : Nat × Nat, p.1 < b.w → p.2 < b.h → (b.cell p).is_mine = false →
            (b.cell p).state = CellState.UNCOVERED)) := by
  have hm := reachable_mineCount hb
  have hinv := reachable_mine_not_uncovered hb
  have hiff := won_count_iff b nm hm hinv
  constructor
  · intro hex
    unfold game_status
    rw [if_pos ((explodedCount_ne_zero_iff b).mpr hex)]
  · unfold game_status
    by_cases hex : explodedCount b ≠ 0
    · rw [if_pos hex]
      constructor
      · intro h
        simp at h
      · rintro ⟨hne, _⟩
        exact absurd ((explodedCount_ne_zero_iff b).mp hex) hne
    · rw [if_neg hex]
      have hnoex : ¬∃ p : Nat × Nat, p.1 < b.w ∧ p.2 < b.h
          ∧ (b.cell p).state = CellState.EXPLODED := by
        intro hcontra
        exact hex ((explodedCount_ne_zero_iff b).mpr hcontra)
      by_cases hwin : ((b.h : Int) * (b.w : Int) - (nm : Int) - (uncoveredCount b : Int) = 0)
      · rw [if_pos hwin]
        constructor
        · intro _
          exact ⟨hnoex, hiff.mp hwin⟩
        · intro _
          rfl
      · rw [if_neg hwin]
        constructor
        · intro h
          simp at h
        · rintro ⟨_, hall⟩
          exact absurd (hiff.mpr hall) hwin

def c1wBoard : Board := ⟨1, 1, fun _ => ⟨false, CellState.COVERED, 0⟩⟩

theorem game_status_spec_witness :
    game_status (reveal c1wBoard (0, 0)) 0 = GameStatus.Won := by
  have hreach : Reachable 0 (reveal c1wBoard (0, 0)) :=
    Reachable.rstep c1wBoard (0, 0)
      (Reachable.init c1wBoard (fun _ _ _ => rfl) (by decide))
      (by decide) (by decide)
  apply (game_status_spec hreach).2.mpr
  have hw : (reveal c1wBoard (0, 0)).w = 1 := rfl
  have hh : (reveal c1wBoard (0, 0)).h = 1 := rfl
  constructor
  · rintro ⟨p, hp1, hp2, hps⟩
    rw [hw] at hp1
    rw [hh] at hp2
    obtain ⟨x, y⟩ := p
    have hx : x = 0 := by omega
    have hy : y = 0 := by omega
    subst hx
    subst hy
    exact absurd hps (by decide)
  · intro p hp1 hp2 _
    rw [hw] at hp1
    rw [hh] at hp2
    obtain ⟨x, y⟩ := p
    have hx : x = 0 := by omega
    have hy : y = 0 := by omega
    subst hx
    subst hy
    decide

/-- C10: in every reachable board state, no cell is simultaneously a mine and
Uncovered: uncover sends a covered mine to EXPLODED, never to UNCOVERED, and
flag only moves cells between COVERED and FLAGGED. -/
theorem mine_never_uncovered {nm : Nat} {b : Board} (hb : Reachable nm b) :
    ∀ p : Nat × Nat, p.1 < b.w → p.2 < b.h → (b.cell p).is_mine = true →
      (b.cell p).state ≠ CellState.UNCOVERED :=
  reachable_mine_not_uncovered hb

def c10wBoard : Board := ⟨2, 1, fun p => ⟨decide (p = (1, 0)), CellState.COVERED, 0⟩⟩

theorem mine_never_uncovered_witness :
    (c10wBoard.cell (1, 0)).state ≠ CellState.UNCOVERED :=
  mine_never_uncovered
    (Reachable.init c10wBoard (fun _ _ _ => rfl) (by decide) : Reachable 1 c10wBoard)
    (1, 0) (by decide) (by decide) (by decide)

/-! ### The zero-cascade region theorem (C2) -/

/-- C2 (amended): on a board with computed neighbour counts where no cell is
Flagged and every cell of the connected zero region and its boundary is
Covered, revealing a Covered non-mine cell with neighbour count zero
uncovers exactly the region together with its boundary: all those cells end
Uncovered, every other cell is unchanged, and no cell becomes Exploded. -/
theorem reveal_zero_uncovers_region (b : Board) (s : Nat × Nat)
    (hsx : s.1 < b.w) (hsy : s.2 < b.h)
    (hcount : ∀ p : Nat × Nat, p.1 < b.w → p.2 < b.h →
      (b.cell p).neighbors = countNbrMines b p.1 p.2)
    (hsm : (b.cell s).is_mine = false)
    (hsz : (b.cell s).neighbors = 0)
    (hreg : ∀ p, InRegion b s p → (b.cell p).state = CellState.COVERED)
    (hflag : ∀ p : Nat × Nat, p.1 < b.w → p.2 < b.h →
      (b.cell p).state ≠ CellState.FLAGGED) :
    (∀ p, InRegion b s p → ((reveal b s).cell p).state = CellState.UNCOVERED)
    ∧ (∀ p, ¬ InRegion b s p → (reveal b s).cell p = b.cell p)
    ∧ (∀ p, ((reveal b s).cell p).state = CellState.EXPLODED →
        (b.cell p).state = CellState.EXPLODED) := by
  have hsr := reveal_stepRel b s
  have hns := reveal_newSettled b s hsx hsy
  have hscope : Scoped b s (reveal b s) :=
    uncover_scoped b s hflag (2*(b.w*b.h)+2) b s
      ⟨stepRel_refl b, fun p hp => absurd rfl hp⟩ InRegion.base
  have hsu : ((reveal b s).cell s).state = CellState.UNCOVERED := by
    have hcov := hreg s InRegion.base
    have hrw : reveal b s = (nbrs b.w b.h s.1 s.2).foldl
        (fun acc r => uncover (2*(b.w*b.h)+1) acc r)
        (b.setCell s { b.cell s with state := CellState.UNCOVERED }) :=
      uncover_covered_zero (2*(b.w*b.h)+1) hcov hsm hsz
    rw [hrw]
    have hfold := foldl_rel stepRel_refl (fun _ _ _ => stepRel_trans)
      (fun acc r _ => uncover_stepRel (2*(b.w*b.h)+1) acc r)
      (b.setCell s { b.cell s with state := CellState.UNCOVERED })
      (g := fun acc r => uncover (2*(b.w*b.h)+1) acc r) (L := nbrs b.w b.h s.1 s.2)
    rw [stepRel_of_ne_covered hfold s (by rw [cell_setCell_self]; simp), cell_setCell_self]
  have hcompl : ∀ p, InRegion b s p → ((reveal b s).cell p).state = CellState.UNCOVERED := by
    intro p hp
    induction hp with
    | base => exact hsu
    | step p q hp hz hq ihp =>
      have hqreg : InRegion b s q := InRegion.step p q hp hz hq
      have hqcov : (b.cell q).state = CellState.COVERED := hreg q hqreg
      have hpcov : (b.cell p).state = CellState.COVERED := hreg p hp
      have hpz : ((reveal b s).cell p).neighbors = 0 := by
        rw [stepRel_neighbors hsr p]
        exact hz
      have hnotcov := hns p hpcov ihp hpz q hq
      rcases hsr.2.2 q with hc | ⟨_, hc⟩
      · rw [hc] at hnotcov
        exact absurd hqcov hnotcov
      · rw [hc]
        have hqm : (b.cell q).is_mine = false := inRegion_not_mine hcount hsx hsy hsm q hqreg
        simp [coveredTo, hqm]
  refine ⟨hcompl, fun p hp => ?_, fun p hp => ?_⟩
  · by_contra hne
    exact hp (hscope.2 p hne)
  · rcases hsr.2.2 p with hc | ⟨hcov, hc⟩
    · rw [← hc]
      exact hp
    · exfalso
      have hchanged : (reveal b s).cell p ≠ b.cell p := by
        rw [hc]
        intro hEq
        have hstates := congrArg Cell.state hEq
        rw [hcov] at hstates
        exact coveredTo_state_ne _ hstates
      have hpr : InRegion b s p := hscope.2 p hchanged
      have hpm : (b.cell p).is_mine = false := inRegion_not_mine hcount hsx hsy hsm p hpr
      rw [hc] at hp
      simp [coveredTo, hpm] at hp

/-- The counterexample board for the unamended C2: a 1 by 3 strip with no
mines (all neighbour counts zero) whose right cell is Flagged. -/
def cexBoard : Board :=
  ⟨3, 1, fun p => if p = (2, 0) then ⟨false, CellState.FLAGGED, 0⟩
    else ⟨false, CellState.COVERED, 0⟩⟩

/-- C2 counterexample: on cexBoard all assumptions of the claim hold
(neighbour counts are computed, the revealed cell (0,0) is a Covered
non-mine with count zero, and (2,0) lies in its connected zero region), yet
revealing (0,0) leaves (2,0) Flagged instead of uncovering it: the cascade
skips Flagged cells, so it does not uncover the entire region. -/
theorem reveal_zero_region_cex :
    (∀ x, x < 3 → ∀ y, y < 1 →
      (cexBoard.cell (x, y)).neighbors = countNbrMines cexBoard x y)
    ∧ (cexBoard.cell (0, 0)).state = CellState.COVERED
    ∧ (cexBoard.cell (0, 0)).is_mine = false
    ∧ (cexBoard.cell (0, 0)).neighbors = 0
    ∧ InRegion cexBoard (0, 0) (2, 0)
    ∧ ((reveal cexBoard (0, 0)).cell (2, 0)).state ≠ CellState.UNCOVERED := by
  refine ⟨by decide, by decide, by decide, by decide, ?_, by decide⟩
  have h01 : InRegion cexBoard (0, 0) (1, 0) :=
    InRegion.step (0, 0) (1, 0) InRegion.base (by decide) (by decide)
  exact InRegion.step (1, 0) (2, 0) h01 (by decide) (by decide)

def c2wBoard : Board := ⟨2, 1, fun _ => ⟨false, CellState.COVERED, 0⟩⟩

theorem reveal_zero_uncovers_region_witness :
    ((reveal c2wBoard (0, 0)).cell (1, 0)).state = CellState.UNCOVERED :=
  (reveal_zero_uncovers_region c2wBoard (0, 0) (by decide) (by decide)
    (fun p h1 h2 => by
      obtain ⟨x, y⟩ := p
      have hw : c2wBoard.w = 2 := rfl
      have hh : c2wBoard.h = 1 := rfl
      rw [hw] at h1
      rw [hh] at h2
      interval_cases x <;> interval_cases y <;> decide)
    rfl rfl (fun p _ => rfl)
    (fun p _ _ => by
      show CellState.COVERED ≠ CellState.FLAGGED
      decide)).1 (1, 0)
    (InRegion.step (0, 0) (1, 0) InRegion.base (by decide) (by decide))

/-! ### Chord, mine explosion, termination and flag claims -/

theorem chord_step_stepRel (f : Nat) (acc : Board) (s : Nat × Nat) :
    StepRel acc
      (if (acc.cell s).state = CellState.COVERED then uncover f acc s else acc) := by
  by_cases hc : (acc.cell s).state = CellState.COVERED
  · rw [if_pos hc]
    exact uncover_stepRel f acc s
  · rw [if_neg hc]
    exact stepRel_refl acc

/-- After a chord fold, every member of the folded list has left COVERED. -/
theorem foldl_chord_clears :
    ∀ (L : List (Nat × Nat)) (b : Board) (f : Nat), 1 ≤ f →
      ∀ r ∈ L, ((L.foldl (fun acc s =>
        if (acc.cell s).state = CellState.COVERED then uncover f acc s else acc) b).cell r).state
        ≠ CellState.COVERED := by
  intro L
  induction L with
  | nil =>
    intro b f _ r hr
    simp at hr
  | cons a t ih =>
    intro b f hf r hr
    simp only [List.foldl_cons]
    rcases List.mem_cons.mp hr with rfl | hrt
    · by_cases hat : r ∈ t
      · exact ih _ f hf r hat
      · obtain ⟨f', rfl⟩ : ∃ f', f = f'+1 := ⟨f-1, by omega⟩
        by_cases hcv : (b.cell r).state = CellState.COVERED
        · rw [if_pos hcv]
          have h1 := uncover_succ_ne_covered f' b r
          have hfold := foldl_rel stepRel_refl (fun _ _ _ => stepRel_trans)
            (fun acc s _ => chord_step_stepRel (f'+1) acc s) (uncover (f'+1) b r)
            (g := fun acc s =>
              if (acc.cell s).state = CellState.COVERED then uncover (f'+1) acc s else acc)
            (L := t)
          rw [stepRel_of_ne_covered hfold r h1]
          exact h1
        · rw [if_neg hcv]
          have hfold := foldl_rel stepRel_refl (fun _ _ _ => stepRel_trans)
            (fun acc s _ => chord_step_stepRel (f'+1) acc s) b
            (g := fun acc s =>
              if (acc.cell s).state = CellState.COVERED then uncover (f'+1) acc s else acc)
            (L := t)
          rw [stepRel_of_ne_covered hfold r hcv]
          exact hcv
    · exact ih _ f hf r hrt

/-- C3: revealing an Uncovered cell whose flagged-neighbour count equals its
neighbour count reveals (through the same recursive reveal) every currently
Covered neighbour, each of which thereby leaves the Covered state; when the
counts differ the operation leaves the board unchanged. -/
theorem chord_reveals_covered_neighbors (b : Board) (q : Nat × Nat)
    (hq : (b.cell q).state = CellState.UNCOVERED) :
    (flaggedNbrCount b q = (b.cell q).neighbors →
      ∀ r ∈ nbrs b.w b.h q.1 q.2, (b.cell r).state = CellState.COVERED →
        ((reveal b q).cell r).state ≠ CellState.COVERED)
    ∧ (flaggedNbrCount b q ≠ (b.cell q).neighbors → reveal b q = b) := by
  constructor
  · intro h5 r hr _
    have hrw : reveal b q = (nbrs b.w b.h q.1 q.2).foldl
        (fun acc s =>
          if (acc.cell s).state = CellState.COVERED
          then uncover (2*(b.w*b.h)+1) acc s else acc) b :=
      uncover_chord_eq (2*(b.w*b.h)+1) hq h5
    rw [hrw]
    exact foldl_chord_clears (nbrs b.w b.h q.1 q.2) b (2*(b.w*b.h)+1) (by omega) r hr
  · intro h5
    exact uncover_chord_ne (2*(b.w*b.h)+1) hq h5

def c3wBoard : Board :=
  ⟨2, 1, fun p => if p = (0, 0) then ⟨false, CellState.UNCOVERED, 0⟩
    else ⟨false, CellState.COVERED, 0⟩⟩

theorem chord_reveals_covered_neighbors_witness :
    ((reveal c3wBoard (0, 0)).cell (1, 0)).state ≠ CellState.COVERED :=
  (chord_reveals_covered_neighbors c3wBoard (0, 0) (by decide)).1
    (by decide) (1, 0) (by decide) (by decide)

/-- C4: revealing a Covered mine cell sets exactly that cell to EXPLODED (no
other cell changes) and the resulting status is Lost, for any mine total. -/
theorem reveal_covered_mine_explodes (b : Board) (q : Nat × Nat)
    (hx : q.1 < b.w) (hy : q.2 < b.h)
    (hcov : (b.cell q).state = CellState.COVERED) (hm : (b.cell q).is_mine = true) :
    reveal b q = b.setCell q { b.cell q with state := CellState.EXPLODED }
    ∧ ∀ nm : Nat, game_status (reveal b q) nm = GameStatus.Lost := by
  have hrw : reveal b q = b.setCell q { b.cell q with state := CellState.EXPLODED } :=
    uncover_covered_mine (2*(b.w*b.h)+1) hcov hm
  refine ⟨hrw, fun nm => ?_⟩
  rw [hrw]
  have hexp : explodedCount (b.setCell q { b.cell q with state := CellState.EXPLODED }) ≠ 0 :=
    (explodedCount_ne_zero_iff _).mpr ⟨q, hx, hy, by rw [cell_setCell_self]⟩
  unfold game_status
  rw [if_pos hexp]

def c4wBoard : Board := ⟨1, 1, fun _ => ⟨true, CellState.COVERED, 0⟩⟩

theorem reveal_covered_mine_explodes_witness :
    reveal c4wBoard (0, 0)
      = c4wBoard.setCell (0, 0) { c4wBoard.cell (0, 0) with state := CellState.EXPLODED }
    ∧ game_status (reveal c4wBoard (0, 0)) 1 = GameStatus.Lost := by
  have h := reveal_covered_mine_explodes c4wBoard (0, 0)
    (by decide) (by decide) (by decide) (by decide)
  exact ⟨h.1, h.2 1⟩

/-- C7: for every board and in-bounds coordinate the reveal recursion
terminates (every fuel at least 2 * coveredCount + 2 computes the same
result, which reveal returns), and during one reveal each cell transitions
out of COVERED at most once: a cell is either untouched or moves from
COVERED directly to its final UNCOVERED or EXPLODED state, and a cell
already out of COVERED is never changed again. -/
theorem reveal_terminates_once (b : Board) (q : Nat × Nat)
    (hx : q.1 < b.w) (hy : q.2 < b.h) :
    (∀ f, 2 * coveredCount b + 2 ≤ f → uncover f b q = reveal b q)
    ∧ ∀ p : Nat × Nat, (reveal b q).cell p = b.cell p
        ∨ ((b.cell p).state = CellState.COVERED
           ∧ (reveal b q).cell p = coveredTo (b.cell p)) :=
  ⟨fun f hf => uncover_eq_reveal b q hx hy f hf, (reveal_stepRel b q).2.2⟩

theorem reveal_terminates_once_witness :
    uncover 100 c1wBoard (0, 0) = reveal c1wBoard (0, 0) :=
  (reveal_terminates_once c1wBoard (0, 0) (by decide) (by decide)).1 100 (by decide)

/-- C9: toggle_flag sends COVERED to FLAGGED and FLAGGED back to COVERED, is
a no-op on UNCOVERED and EXPLODED cells, and applying it twice to the same
coordinate restores the original board. -/
theorem flag_toggle_involution (b : Board) (q : Nat × Nat) :
    ((b.cell q).state = CellState.COVERED →
      ((flag b q).cell q).state = CellState.FLAGGED)
    ∧ ((b.cell q).state = CellState.FLAGGED →
      ((flag b q).cell q).state = CellState.COVERED)
    ∧ ((b.cell q).state = CellState.UNCOVERED ∨ (b.cell q).state = CellState.EXPLODED →
      flag b q = b)
    ∧ flag (flag b q) q = b := by
  refine ⟨?_, ?_, ?_, ?_⟩
  · intro h
    rw [flag_covered b q h, cell_setCell_self]
  · intro h
    rw [flag_flagged b q h, cell_setCell_self]
  · intro h
    rcases h with h | h
    · exact flag_inert b q (by rw [h]; simp) (by rw [h]; simp)
    · exact flag_inert b q (by rw [h]; simp) (by rw [h]; simp)
  · by_cases h1 : (b.cell q).state = CellState.COVERED
    · have hB1 : flag b q = b.setCell q { b.cell q with state := CellState.FLAGGED } :=
        flag_covered b q h1
      have hs1 : ((flag b q).cell q).state = CellState.FLAGGED := by
        rw [hB1, cell_setCell_self]
      rw [flag_flagged (flag b q) q hs1]
      apply Board.ext_cells
      · exact flag_w b q
      · exact flag_h b q
      · intro p
        by_cases hpq : p = q
        · subst hpq
          rw [cell_setCell_self]
          have hc1 : (flag b p).cell p = { b.cell p with state := CellState.FLAGGED } := by
            rw [hB1, cell_setCell_self]
          rw [hc1]
          exact cell_state_update_id _ _ h1
        · rw [cell_setCell_ne _ _ _ _ hpq, hB1, cell_setCell_ne _ _ _ _ hpq]
    · by_cases h2 : (b.cell q).state = CellState.FLAGGED
      · have hB1 : flag b q = b.setCell q { b.cell q with state := CellState.COVERED } :=
          flag_flagged b q h2
        have hs1 : ((flag b q).cell q).state = CellState.COVERED := by
          rw [hB1, cell_setCell_self]
        rw [flag_covered (flag b q) q hs1]
        apply Board.ext_cells
        · exact flag_w b q
        · exact flag_h b q
        · intro p
          by_cases hpq : p = q
          · subst hpq
            rw [cell_setCell_self]
            have hc1 : (flag b p).cell p = { b.cell p with state := CellState.COVERED } := by
              rw [hB1, cell_setCell_self]
            rw [hc1]
            exact cell_state_update_id _ _ h2
          · rw [cell_setCell_ne _ _ _ _ hpq, hB1, cell_setCell_ne _ _ _ _ hpq]
      · have hB1 : flag b q = b := flag_inert b q h1 h2
        rw [hB1]
        exact hB1

theorem flag_toggle_involution_witness :
    ((flag c1wBoard (0, 0)).cell (0, 0)).state = CellState.FLAGGED
    ∧ flag (flag c1wBoard (0, 0)) (0, 0) = c1wBoard :=
  ⟨(flag_toggle_involution c1wBoard (0, 0)).1 rfl,
   (flag_toggle_involution c1wBoard (0, 0)).2.2.2⟩

/-! ### Mine generation (C5) -/

theorem mineCount_eq_zero_no_mine {b : Board} (h : mineCount b = 0) (q : Nat × Nat)
    (hq : q ∈ grid b) : (b.cell q).is_mine = false := by
  by_cases hm : (b.cell q).is_mine = true
  · exfalso
    have hmem : q ∈ (grid b).filter (fun p => (b.cell p).is_mine = true) :=
      Finset.mem_filter.mpr ⟨hq, hm⟩
    unfold mineCount at h
    rw [Finset.card_eq_zero] at h
    rw [h] at hmem
    exact absurd hmem (Finset.not_mem_empty q)
  · simpa using hm

theorem mineCount_setMine_succ (b : Board) (q : Nat × Nat) (hq : q ∈ grid b)
    (hnm : (b.cell q).is_mine = false) :
    mineCount (b.setCell q { b.cell q with is_mine := true }) = mineCount b + 1 := by
  unfold mineCount
  have hgrid : grid (b.setCell q { b.cell q with is_mine := true }) = grid b := rfl
  rw [hgrid]
  have hfe : (grid b).filter
        (fun p => ((b.setCell q { b.cell q with is_mine := true }).cell p).is_mine = true)
      = insert q ((grid b).filter (fun p => (b.cell p).is_mine = true)) := by
    ext p
    rw [Finset.mem_insert, Finset.mem_filter, Finset.mem_filter]
    constructor
    · rintro ⟨hpg, hpm⟩
      by_cases hpq : p = q
      · exact Or.inl hpq
      · rw [cell_setCell_ne _ _ _ _ hpq] at hpm
        exact Or.inr ⟨hpg, hpm⟩
    · intro hp
      rcases hp with rfl | ⟨hpg, hpm⟩
      · refine ⟨hq, ?_⟩
        rw [cell_setCell_self]
      · refine ⟨hpg, ?_⟩
        by_cases hpq : p = q
        · subst hpq
          rw [cell_setCell_self]
        · rw [cell_setCell_ne _ _ _ _ hpq]
          exact hpm
  rw [hfe, Finset.card_insert_of_not_mem]
  intro hmem
  exact absurd (Finset.mem_filter.mp hmem).2 (by rw [hnm]; simp)

theorem generate_mines_invariant (nm sx sy : Nat) (picks : Nat → Nat × Nat) :
    ∀ (fuel k i : Nat) (b b' : Board),
      generate_mines nm sx sy picks fuel k i b = some b' →
      0 < b.w → 0 < b.h → mineCount b = i → i ≤ nm →
      (b.cell (sx, sy)).is_mine = false →
      mineCount b' = nm ∧ (b'.cell (sx, sy)).is_mine = false := by
  intro fuel
  induction fuel with
  | zero =>
    intro k i b b' hres hw hh hmc hle havoid
    simp only [generate_mines] at hres
    split_ifs at hres with hlt
    injection hres with hbb
    subst hbb
    exact ⟨by omega, havoid⟩
  | succ fuel ih =>
    intro k i b b' hres hw hh hmc hle havoid
    simp only [generate_mines] at hres
    by_cases hlt : i < nm
    · rw [if_pos hlt] at hres
      by_cases hav : ¬((picks k).1 % b.w = sx ∧ (picks k).2 % b.h = sy)
      · rw [if_pos hav] at hres
        by_cases hmine : (b.cell ((picks k).1 % b.w, (picks k).2 % b.h)).is_mine
        · rw [if_pos hmine] at hres
          exact ih (k+1) i b b' hres hw hh hmc hle havoid
        · rw [if_neg hmine] at hres
          have hmine' : (b.cell ((picks k).1 % b.w, (picks k).2 % b.h)).is_mine = false := by
            simpa using hmine
          have hing : ((picks k).1 % b.w, (picks k).2 % b.h) ∈ grid b :=
            mem_grid.mpr ⟨Nat.mod_lt _ hw, Nat.mod_lt _ hh⟩
          have hcount := mineCount_setMine_succ b _ hing hmine'
          have havoid' : ((b.setCell ((picks k).1 % b.w, (picks k).2 % b.h)
              { b.cell ((picks k).1 % b.w, (picks k).2 % b.h) with is_mine := true }).cell
                (sx, sy)).is_mine = false := by
            rw [cell_setCell_ne]
            · exact havoid
            · intro hEq
              apply hav
              exact ⟨(congrArg Prod.fst hEq).symm, (congrArg Prod.snd hEq).symm⟩
          exact ih (k+1) (i+1) _ b' hres hw hh (by rw [hcount, hmc]) hlt havoid'
      · rw [if_neg hav] at hres
        exact ih (k+1) i b b' hres hw hh hmc hle havoid
    · rw [if_neg hlt] at hres
      injection hres with hbb
      subst hbb
      exact ⟨by omega, havoid⟩

/-- C5: starting from a mine-free board, if generate_mines completes with an
in-bounds avoided first-click cell and 0 <= nm < width*height, the result
has exactly nm mine cells (necessarily distinct, being distinct grid cells)
and the avoided cell is not one of them. -/
theorem generate_mines_spec (nm sx sy fuel : Nat) (picks : Nat → Nat × Nat)
    (b b' : Board) (hsx : sx < b.w) (hsy : sy < b.h) (_hmax : nm < b.w * b.h)
    (hstart : mineCount b = 0)
    (hres : generate_mines nm sx sy picks fuel 0 0 b = some b') :
    mineCount b' = nm ∧ (b'.cell (sx, sy)).is_mine = false := by
  have hw : 0 < b.w := by omega
  have hh : 0 < b.h := by omega
  have havoid : (b.cell (sx, sy)).is_mine = false :=
    mineCount_eq_zero_no_mine hstart (sx, sy) (mem_grid.mpr ⟨hsx, hsy⟩)
  exact generate_mines_invariant nm sx sy picks fuel 0 0 b b' hres hw hh hstart
    (by omega) havoid

def c5wBoard : Board := ⟨2, 2, fun _ => ⟨false, CellState.COVERED, 0⟩⟩

def c5wResult : Board := c5wBoard.setCell (1, 1) { c5wBoard.cell (1, 1) with is_mine := true }

theorem generate_mines_spec_witness :
    mineCount c5wResult = 1 ∧ (c5wResult.cell (0, 0)).is_mine = false :=
  generate_mines_spec 1 0 0 2 (fun _ => (1, 1)) c5wBoard c5wResult
    (by decide) (by decide) (by decide) (by decide) rfl

/-! ### Neighbour-count computation (C6) -/

/-- Grid adjacency of (i, j) to (x, y): distinct and within one step in each
coordinate (no wrap-around; grid bounds are imposed separately). -/
def Adjacent (x y i j : Nat) : Prop :=
  ¬(i = x ∧ j = y) ∧ x ≤ i + 1 ∧ i ≤ x + 1 ∧ y ≤ j + 1 ∧ j ≤ y + 1

instance (x y i j : Nat) : Decidable (Adjacent x y i j) := by
  unfold Adjacent
  infer_instance

/-- The exact number of mines among the at most 8 in-bounds grid-adjacent
cells of (x, y), as the cardinality of that set of cells. -/
def specNeighborMines (b : Board) (x y : Nat) : Nat :=
  ((grid b).filter (fun p => Adjacent x y p.1 p.2 ∧ (b.cell p).is_mine = true)).card

theorem mem_nbrs {w h x y : Nat} {r : Nat × Nat} :
    r ∈ nbrs w h x y ↔ r.1 < w ∧ r.2 < h ∧ Adjacent x y r.1 r.2 := by
  simp only [nbrs, List.mem_filterMap, List.mem_range]
  constructor
  · rintro ⟨d, hd, hif⟩
    split_ifs at hif with hg
    injection hif with hv
    subst hv
    unfold Adjacent
    dsimp only
    omega
  · rintro ⟨h1, h2, hadj⟩
    unfold Adjacent at hadj
    refine ⟨(r.2 + 1 - y) * 3 + (r.1 + 1 - x), by omega, ?_⟩
    have hmod : ((r.2 + 1 - y) * 3 + (r.1 + 1 - x)) % 3 = r.1 + 1 - x := by omega
    have hdiv : ((r.2 + 1 - y) * 3 + (r.1 + 1 - x)) / 3 = r.2 + 1 - y := by omega
    rw [hmod, hdiv, if_pos (by omega)]
    simp only [Option.some.injEq]
    have hcomp1 : x + (r.1 + 1 - x) - 1 = r.1 := by omega
    have hcomp2 : y + (r.2 + 1 - y) - 1 = r.2 := by omega
    rw [hcomp1, hcomp2]

theorem nbrs_nodup (w h x y : Nat) : (nbrs w h x y).Nodup := by
  refine List.Nodup.filterMap ?_ (List.nodup_range 9)
  intro a a' r hra hra'
  rw [Option.mem_def] at hra hra'
  dsimp only at hra hra'
  split_ifs at hra hra' with h1 h2
  injection hra with hva
  injection hra' with hva'
  have hvv := hva.trans hva'.symm
  rw [Prod.mk.injEq] at hvv
  omega

theorem countNbrMines_eq_spec (b : Board) (x y : Nat) :
    countNbrMines b x y = specNeighborMines b x y := by
  unfold countNbrMines specNeighborMines
  rw [List.countP_eq_length_filter]
  rw [← List.toFinset_card_of_nodup (List.Nodup.filter _ (nbrs_nodup b.w b.h x y))]
  congr 1
  ext p
  rw [List.mem_toFinset, List.mem_filter, Finset.mem_filter, mem_nbrs, mem_grid]
  constructor
  · rintro ⟨⟨hw, hh, hadj⟩, hmine⟩
    exact ⟨⟨hw, hh⟩, hadj, by simpa using hmine⟩
  · rintro ⟨⟨hw, hh⟩, hadj, hmine⟩
    exact ⟨⟨hw, hh, hadj⟩, by simpa using hmine⟩

def mkRow (w y : Nat) : List (Nat × Nat) := (List.range w).map (fun x => (x, y))

theorem mem_mkRow {w y : Nat} {p : Nat × Nat} : p ∈ mkRow w y ↔ p.1 < w ∧ p.2 = y := by
  unfold mkRow
  rw [List.mem_map]
  constructor
  · rintro ⟨x, hx, rfl⟩
    exact ⟨by simpa using List.mem_range.mp hx, rfl⟩
  · rintro ⟨h1, h2⟩
    refine ⟨p.1, List.mem_range.mpr h1, ?_⟩
    rw [← h2]

theorem foldl_updNbrs_fields :
    ∀ (L : List (Nat × Nat)) (b : Board),
      (L.foldl updNbrs b).w = b.w ∧ (L.foldl updNbrs b).h = b.h
      ∧ ∀ p, ((L.foldl updNbrs b).cell p).is_mine = (b.cell p).is_mine
          ∧ ((L.foldl updNbrs b).cell p).state = (b.cell p).state := by
  intro L
  induction L with
  | nil =>
    intro b
    exact ⟨rfl, rfl, fun p => ⟨rfl, rfl⟩⟩
  | cons a t ih =>
    intro b
    simp only [List.foldl_cons]
    have h1 := ih (updNbrs b a)
    refine ⟨h1.1, h1.2.1, fun p => ?_⟩
    have h2 := h1.2.2 p
    constructor
    · rw [h2.1]
      unfold updNbrs
      by_cases hpa : p = a
      · subst hpa
        rw [cell_setCell_self]
      · rw [cell_setCell_ne _ _ _ _ hpa]
    · rw [h2.2]
      unfold updNbrs
      by_cases hpa : p = a
      · subst hpa
        rw [cell_setCell_self]
      · rw [cell_setCell_ne _ _ _ _ hpa]

theorem countNbrMines_congr (b2 b : Board) (hw : b2.w = b.w) (hh : b2.h = b.h)
    (hm : ∀ p, (b2.cell p).is_mine = (b.cell p).is_mine) (x y : Nat) :
    countNbrMines b2 x y = countNbrMines b x y := by
  unfold countNbrMines
  rw [hw, hh]
  exact List.countP_congr (fun r _ => by rw [hm r])

theorem foldl_updNbrs_sets :
    ∀ (L : List (Nat × Nat)) (b b0 : Board), b.w = b0.w → b.h = b0.h →
      (∀ p, (b.cell p).is_mine = (b0.cell p).is_mine) →
      ∀ p : Nat × Nat,
        (p ∈ L → ((L.foldl updNbrs b).cell p).neighbors = countNbrMines b0 p.1 p.2)
        ∧ (p ∉ L → ((L.foldl updNbrs b).cell p).neighbors = (b.cell p).neighbors) := by
  intro L
  induction L with
  | nil =>
    intro b b0 _ _ _ p
    exact ⟨fun hp => absurd hp (by simp), fun _ => rfl⟩
  | cons a t ih =>
    intro b b0 hw hh hm p
    simp only [List.foldl_cons]
    have hw1 : (updNbrs b a).w = b0.w := hw
    have hh1 : (updNbrs b a).h = b0.h := hh
    have hm1 : ∀ r, ((updNbrs b a).cell r).is_mine = (b0.cell r).is_mine := by
      intro r
      rw [← hm r]
      unfold updNbrs
      by_cases hra : r = a
      · subst hra
        rw [cell_setCell_self]
      · rw [cell_setCell_ne _ _ _ _ hra]
    have iht := ih (updNbrs b a) b0 hw1 hh1 hm1
    constructor
    · intro hp
      by_cases hpt : p ∈ t
      · exact (iht p).1 hpt
      · have hpa : p = a := by
          rcases List.mem_cons.mp hp with h | h
          · exact h
          · exact absurd h hpt
        subst hpa
        rw [(iht p).2 hpt]
        unfold updNbrs
        rw [cell_setCell_self]
        exact countNbrMines_congr b b0 hw hh hm p.1 p.2
    · intro hp
      have hpa : p ≠ a := fun h => hp (by rw [h]; exact List.mem_cons_self a t)
      have hpt : p ∉ t := fun h => hp (List.mem_cons_of_mem a h)
      rw [(iht p).2 hpt]
      unfold updNbrs
      rw [cell_setCell_ne _ _ _ _ hpa]

theorem calc_neighbors_eq (b : Board) :
    calculate_neighbors b
      = (List.range b.h).foldl (fun acc y => (mkRow b.w y).foldl updNbrs acc) b := by
  unfold calculate_neighbors
  have hfun : (fun (acc : Board) (y : Nat) =>
      (List.range b.w).foldl (fun acc2 x => updNbrs acc2 (x, y)) acc)
      = fun acc y => (mkRow b.w y).foldl updNbrs acc := by
    funext acc y
    rw [mkRow, List.foldl_map]
  rw [hfun]

theorem foldl_rows_sets :
    ∀ (R : List Nat) (b b0 : Board), b.w = b0.w → b.h = b0.h →
      (∀ p, (b.cell p).is_mine = (b0.cell p).is_mine) →
      ∀ p : Nat × Nat,
        (p.1 < b0.w → p.2 ∈ R →
          ((R.foldl (fun acc y => (mkRow b0.w y).foldl updNbrs acc) b).cell p).neighbors
            = countNbrMines b0 p.1 p.2)
        ∧ (p.2 ∉ R →
          ((R.foldl (fun acc y => (mkRow b0.w y).foldl updNbrs acc) b).cell p).neighbors
            = (b.cell p).neighbors) := by
  intro R
  induction R with
  | nil =>
    intro b b0 _ _ _ p
    exact ⟨fun _ hp => absurd hp (by simp), fun _ => rfl⟩
  | cons a t ih =>
    intro b b0 hw hh hm p
    simp only [List.foldl_cons]
    have hf := foldl_updNbrs_fields (mkRow b0.w a) b
    have hw1 : ((mkRow b0.w a).foldl updNbrs b).w = b0.w := hf.1.trans hw
    have hh1 : ((mkRow b0.w a).foldl updNbrs b).h = b0.h := hf.2.1.trans hh
    have hm1 : ∀ r, (((mkRow b0.w a).foldl updNbrs b).cell r).is_mine
        = (b0.cell r).is_mine := fun r => ((hf.2.2 r).1).trans (hm r)
    have iht := ih ((mkRow b0.w a).foldl updNbrs b) b0 hw1 hh1 hm1
    constructor
    · intro hx hp
      by_cases hpt : p.2 ∈ t
      · exact (iht p).1 hx hpt
      · have hpa : p.2 = a := by
          rcases List.mem_cons.mp hp with h | h
          · exact h
          · exact absurd h hpt
        rw [(iht p).2 hpt]
        have hpm : p ∈ mkRow b0.w a := mem_mkRow.mpr ⟨hx, hpa⟩
        exact (foldl_updNbrs_sets (mkRow b0.w a) b b0 hw hh hm p).1 hpm
    · intro hp
      have hpa : p.2 ≠ a := fun h => hp (by rw [h]; exact List.mem_cons_self a t)
      have hpt : p.2 ∉ t := fun h => hp (List.mem_cons_of_mem a h)
      rw [(iht p).2 hpt]
      have hpm : p ∉ mkRow b0.w a := fun h => hpa (mem_mkRow.mp h).2
      exact (foldl_updNbrs_sets (mkRow b0.w a) b b0 hw hh hm p).2 hpm

/-- C6: after calculate_neighbors, every in-bounds cell stores the exact
number of mines among its at most 8 in-bounds grid-adjacent cells;
out-of-bounds positions contribute nothing (no wrap-around). -/
theorem calculate_neighbors_correct (b : Board) (x y : Nat)
    (hx : x < b.w) (hy : y < b.h) :
    ((calculate_neighbors b).cell (x, y)).neighbors = specNeighborMines b x y := by
  rw [calc_neighbors_eq]
  have h := (foldl_rows_sets (List.range b.h) b b rfl rfl (fun _ => rfl) (x, y)).1 hx
    (List.mem_range.mpr hy)
  rw [h]
  exact countNbrMines_eq_spec b x y

def c6wBoard : Board := ⟨3, 3, fun p => ⟨decide (p = (1, 1)), CellState.COVERED, 0⟩⟩

theorem calculate_neighbors_correct_witness :
    ((calculate_neighbors c6wBoard).cell (0, 0)).neighbors = specNeighborMines c6wBoard 0 0
    ∧ specNeighborMines c6wBoard 0 0 = 1 :=
  ⟨calculate_neighbors_correct c6wBoard 0 0 (by decide) (by decide), by decide⟩

/-! ### The mine-count override (C8) -/

/-- C8 (code bug): the -m option stores its value into num_mines and nothing
in the program ever sets custom_num_mines to true, so main unconditionally
replaces num_mines with width*height/6.  With -w 20 -h 20 -m 5 the parser
records 5, the custom flag stays false, and the game is played with
400/6 = 66 mines instead of the requested 5; the no-override half of the
claim does hold (without -m the count is width*height/6). -/
theorem custom_mines_override_ignored :
    mainNumMines (parseArgs initGlobals [('w', some 20), ('h', some 20), ('m', some 5)]) = 66
    ∧ (parseArgs initGlobals [('w', some 20), ('h', some 20), ('m', some 5)]).num_mines = 5
    ∧ (parseArgs initGlobals
        [('w', some 20), ('h', some 20), ('m', some 5)]).custom_num_mines = false
    ∧ mainNumMines (parseArgs initGlobals [('w', some 20), ('h', some 20)]) = 66 :=
  ⟨rfl, rfl, rfl, rfl⟩

end Mines
